import Mathlib

/-!
Verification of the memtier policy core, the idxset library and the
runtime-class matcher of the cri-resource-manager repository.

The Go source is shallowly embedded:
* `cpuset.CPUSet` and `system.IDSet` become `Finset Nat`;
* Go `int` becomes `Int` (all quantities involved stay far below 2^63 under
  the stated hypotheses, so two's-complement wraparound never fires);
* Go `uint64` memory quantities become `Nat` with an explicit `% 2^64`
  where the code adds or subtracts them;
* Go integer division (truncation toward zero) becomes `Int.tdiv`;
* fallible operations return `Except String _` or `Option _`; a Go panic
  is modelled by an explicit outcome constructor.
-/

instance {ε α : Type} [DecidableEq ε] [DecidableEq α] : DecidableEq (Except ε α)
  | Except.error e, Except.error f =>
    match decEq e f with
    | isTrue h => isTrue (congrArg Except.error h)
    | isFalse h => isFalse (fun hh => h (by injection hh))
  | Except.error _, Except.ok _ => isFalse (fun hh => by injection hh)
  | Except.ok _, Except.error _ => isFalse (fun hh => by injection hh)
  | Except.ok x, Except.ok y =>
    match decEq x y with
    | isTrue h => isTrue (congrArg Except.ok h)
    | isFalse h => isFalse (fun hh => h (by injection hh))

namespace Memtier

/-- Word size of Go's `uint64` memory arithmetic. -/
def U64 : Nat := 2 ^ 64

/-- Go `uint64` addition (wraps modulo 2^64). -/
def addU64 (a b : Nat) : Nat := (a + b) % U64

/-- Go `uint64` subtraction (wraps modulo 2^64). -/
def subU64 (a b : Nat) : Nat := (a % U64 + (U64 - b % U64)) % U64

/-- Modelled from the spec: `memoryType` is a bitmask over DRAM, PMEM and
HBM; its defining Go file is not under src/, only its use sites are.
`memoryUnspec` is the empty mask, `memoryAll` the full one (spec §3). -/
abbrev MemoryType := Nat

/-- The `memoryUnspec` constant (empty bitmask). -/
def memoryUnspec : MemoryType := 0

/-- The `memoryDRAM` bit. -/
def memoryDRAM : MemoryType := 1

/-- The `memoryPMEM` bit. -/
def memoryPMEM : MemoryType := 2

/-- The `memoryHBM` bit. -/
def memoryHBM : MemoryType := 4

/-- The `memoryAll` mask. -/
def memoryAll : MemoryType := 7

/-- `request` from resources.go: the container reference is reduced to an
opaque id, and the topology hints the container carries (consumed by
`GetScore`) are listed as their provider names. -/
structure Request where
  containerId : Nat
  full : Int
  fraction : Int
  isolate : Bool
  memReq : Nat
  memLim : Nat
  memType : MemoryType
  elevate : Int
  hintProviders : List String
deriving DecidableEq

/-- `supply` from resources.go. The `node` back-pointer lives at the `Pool`
level of the embedding; `extraMemReservations` is omitted because no
operation modelled here ever populates it (`SetExtraMemoryReservation` has
no caller under src/). -/
structure Supply where
  isolated : Finset Nat
  sharable : Finset Nat
  granted : Int
  normMem : Nat
  slowMem : Nat
  fastMem : Nat
  grantedMem : Nat
deriving DecidableEq

/-- Modelled from the spec: the `node` type (nodes.go) is not under src/.
A pool is stored arena-style (spec §9): `path` is the list of ancestor
ids, `depth` is `RootDistance`, `physIds` is `GetPhysicalNodeIDs`,
`memsets` tabulates `GetMemset` per memory type (missing entry = empty),
`hintScores` tabulates `HintScore` per provider (hint scores are rational
here in place of Go's float64). `nodeRes` is `GetSupply()` (declared
capacity) and `free` is `FreeSupply()` (capacity still free). -/
structure Pool where
  id : Nat
  path : List Nat
  depth : Nat
  memType : MemoryType
  physIds : List Nat
  memsets : List (MemoryType × Finset Nat)
  hintScores : List (String × ℚ)
  nodeRes : Supply
  free : Supply
deriving DecidableEq

/-- `grant` from resources.go, with nodes referenced by id. -/
structure Grant where
  containerId : Nat
  nodeId : Nat
  memNodeId : Nat
  exclusive : Finset Nat
  portion : Int
  memType : MemoryType
  memset : Finset Nat
  memlimit : Nat
deriving DecidableEq

/-- `score` from resources.go; hint scores are rationals in place of
float64. -/
structure Score where
  isolated : Int
  shared : Int
  colocated : Nat
  hints : List (String × ℚ)
deriving DecidableEq

/-- Looks up an association list with a default, as Go map access does. -/
def lookupD {α β : Type} [DecidableEq α] (l : List (α × β)) (k : α) (d : β) : β :=
  match l.find? (fun e => e.fst = k) with
  | some e => e.snd
  | none => d

/-- `GetMemset` of a pool for a memory type. -/
def Pool.getMemset (p : Pool) (mt : MemoryType) : Finset Nat :=
  lookupD p.memsets mt ∅

/-- `HintScore` of a pool for a hint provider. -/
def Pool.hintScore (p : Pool) (provider : String) : ℚ :=
  lookupD p.hintScores provider 0

/-- Modelled from the spec: `DepthFirst` (nodes.go, not under src/) walks
the subtree rooted at a node (spec §4.3 step 5); in the arena encoding a
pool lies in the subtree of `rootId` iff it is that pool or lists it as an
ancestor. -/
def inSubtree (rootId : Nat) (p : Pool) : Bool :=
  p.id = rootId || p.path.contains rootId

/-- Modelled from the spec: `cpuallocator.AllocateCpus` is not under src/;
the spec (§4.3) fixes only that the selection is deterministic for
identical inputs, so the model takes the `cnt` smallest ids, enumerated
ascending by range-and-filter. -/
def sortedIds (s : Finset Nat) : List Nat :=
  (List.range (s.sup id + 1)).filter (fun i => i ∈ s)

/-- `takeCPUs` (resources.go) removes the taken CPUs from the source set
and errors when the set is too small; the deterministic pick is the `cnt`
smallest ids. -/
def takeCPUs (src : Finset Nat) (cnt : Nat) : Option (Finset Nat × Finset Nat) :=
  if cnt ≤ src.card then
    let taken := ((sortedIds src).take cnt).toFinset
    some (taken, src \ taken)
  else none

/-- `newGrant` from resources.go: the memset is the controllers of the
node for the requested type, falling back to DRAM and then to All. -/
def newGrant (p : Pool) (cid : Nat) (exclusive : Finset Nat) (portion : Int)
    (mt : MemoryType) (memoryLimit : Nat) : Grant :=
  let mems := p.getMemset mt
  let mems := if mems.card = 0 then p.getMemset memoryDRAM else mems
  let mems := if mems.card = 0 then p.getMemset memoryAll else mems
  { containerId := cid
    nodeId := p.id
    memNodeId := p.id
    exclusive := exclusive
    portion := portion
    memType := mt
    memset := mems
    memlimit := memoryLimit }

/-- `grant.SetMemoryNode` from resources.go: updates the memory node and
re-reads the memory controllers from it. -/
def Grant.setMemoryNode (g : Grant) (p : Pool) : Grant :=
  { g with memNodeId := p.id, memset := p.getMemset g.memType }

/-- `supply.AccountAllocate` from resources.go, applied to a pool's free
supply: a strictly different node removes the grant's exclusive CPUs from
its isolated and sharable sets. -/
def accountAllocate (g : Grant) (p : Pool) : Pool :=
  if p.id = g.nodeId then p
  else
    { p with free :=
      { p.free with
        isolated := p.free.isolated \ g.exclusive
        sharable := p.free.sharable \ g.exclusive } }

/-- `supply.AccountRelease` from resources.go: a strictly different node
re-inserts the grant's exclusive CPUs that it owns, split into the
isolated/sharable buckets of its declared supply. -/
def accountRelease (g : Grant) (p : Pool) : Pool :=
  if p.id = g.nodeId then p
  else
    let nodecpus := p.nodeRes.isolated ∪ p.nodeRes.sharable
    let grantcpus := g.exclusive ∩ nodecpus
    let isolated := grantcpus ∩ p.nodeRes.isolated
    let sharable := grantcpus ∩ p.nodeRes.sharable
    { p with free :=
      { p.free with
        isolated := p.free.isolated ∪ isolated
        sharable := p.free.sharable ∪ sharable } }

/-- The exclusive-CPU switch of `supply.Allocate` (resources.go): slice
from the isolated set when it is large enough (with no isolation opt-in
check), else from the sharable set when enough whole CPUs remain
unsliced, and otherwise fall through silently with no exclusive CPUs;
`none` is the internal `takeCPUs` error. -/
def sliceExclusive (cs : Supply) (r : Request) :
    Option (Finset Nat × Finset Nat × Finset Nat) :=
  if r.full > 0 ∧ (cs.isolated.card : Int) ≥ r.full then
    match takeCPUs cs.isolated r.full.toNat with
    | some (ex, rest) => some (ex, rest, cs.sharable)
    | none => none
  else if r.full > 0 ∧
      Int.tdiv (1000 * (cs.sharable.card : Int) - cs.granted) 1000 > r.full then
    match takeCPUs cs.sharable r.full.toNat with
    | some (ex, rest) => some (ex, cs.isolated, rest)
    | none => none
  else some (∅, cs.isolated, cs.sharable)

/-- The supply left on the granting pool after a successful allocation
(sliced CPU sets, the fractional booking, and the memory booking). -/
def allocatedSupply (cs : Supply) (r : Request)
    (isolated sharable : Finset Nat) : Supply :=
  { cs with
    isolated := isolated
    sharable := sharable
    granted := if r.fraction > 0 then cs.granted + r.fraction else cs.granted
    grantedMem := addU64 cs.grantedMem r.memLim }

/-- `supply.Allocate` from resources.go, acting on the whole pool arena:
`nid` is the pool whose free supply is allocated from. The exclusive
switch runs first, then the fractional and memory checks; on success the
grant is built and `AccountAllocate` is applied over the subtree (the
granting node skips itself through the `IsSameNode` guard). -/
def supplyAllocate (st : List Pool) (nid : Nat) (r : Request) :
    Except String (Grant × List Pool) :=
  match st.find? (fun p => p.id = nid) with
  | none => .error "no such pool"
  | some gp =>
    let cs := gp.free
    match sliceExclusive cs r with
    | none => .error "internal error: cannot slice exclusive CPUs"
    | some (exclusive, isolated, sharable) =>
      if r.fraction > 0 ∧ 1000 * (sharable.card : Int) - cs.granted < r.fraction then
        .error "internal error: not enough sharable CPU"
      else if r.memLim > subU64 (cs.slowMem + cs.normMem + cs.fastMem) cs.grantedMem then
        .error "internal error: not enough memory"
      else
        let g := newGrant gp r.containerId exclusive r.fraction r.memType r.memLim
        let st' := st.map (fun p =>
          if p.id = nid then { p with free := allocatedSupply cs r isolated sharable } else p)
        let st'' := st'.map (fun p => if inSubtree nid p then accountAllocate g p else p)
        .ok (g, st'')

/-- `supply.Release` from resources.go, acting on the whole pool arena:
`sid` is the pool whose free supply `Release` is invoked on. Invoked on
the grant's CPU node, it re-unites the exclusive CPUs into the buckets
given by the declared supply, takes back the shared portion, and applies
`AccountRelease` over the subtree; only when invoked on a *different*
pool that is the grant's memory node does it decrement granted memory. -/
def supplyRelease (st : List Pool) (sid : Nat) (g : Grant) : List Pool :=
  if sid = g.nodeId then
    let st' := st.map (fun p =>
      if p.id = sid then
        let isolated := g.exclusive ∩ p.nodeRes.isolated
        let sharable := g.exclusive \ isolated
        { p with free :=
          { p.free with
            isolated := p.free.isolated ∪ isolated
            sharable := p.free.sharable ∪ sharable
            granted := p.free.granted - g.portion } }
      else p)
    st'.map (fun p => if inSubtree sid p then accountRelease g p else p)
  else if sid = g.memNodeId then
    st.map (fun p =>
      if p.id = sid then
        { p with free := { p.free with grantedMem := subU64 p.free.grantedMem g.memlimit } }
      else p)
  else st

/-- `supply.GetScore` from resources.go. `gsc` is the value of the node
method `GrantedSharedCPU` (nodes.go, not under src/), kept opaque exactly
as the spec names it; `grants` is `Policy().allocations.grants` used for
the colocation count. The supply scored is the pool's free supply. -/
def getScore (grants : List Grant) (gsc : Int) (p : Pool) (r : Request) : Score :=
  let cs := p.free
  let full := r.full
  let part := r.fraction
  let part := if full = 0 ∧ part = 0 then 1 else part
  let shared := 1000 * (cs.sharable.card : Int) - gsc
  let isolated := if r.isolate then (cs.isolated.card : Int) - full else 0
  let shared := if ¬r.isolate ∨ isolated < 0 then shared - 1000 * full else shared
  let shared := shared - part
  let colocated := (grants.filter (fun g => g.nodeId = p.id)).length
  let hints := r.hintProviders.map (fun provider => (provider, p.hintScore provider))
  { isolated := isolated, shared := shared, colocated := colocated, hints := hints }

/-- `combineHintScores` from resources.go: the product of all hint scores
and the product of the non-zero ones. -/
def combineHintScores (scores : List (String × ℚ)) : ℚ × ℚ :=
  if scores.length = 0 then (0, 0)
  else
    scores.foldl
      (fun acc e =>
        let combined := acc.1 * e.2
        let filtered := if e.2 ≠ 0 then (if acc.2 = 0 then e.2 else acc.2 * e.2) else acc.2
        (combined, filtered))
      (1, 0)

/-- A placeholder pool, standing for Go's out-of-range slice access value
(never reached in the scenarios considered). -/
def emptyPool : Pool :=
  { id := 0, path := [], depth := 0, memType := memoryUnspec, physIds := []
    memsets := [], hintScores := []
    nodeRes := { isolated := ∅, sharable := ∅, granted := 0, normMem := 0
                 slowMem := 0, fastMem := 0, grantedMem := 0 }
    free := { isolated := ∅, sharable := ∅, granted := 0, normMem := 0
              slowMem := 0, fastMem := 0, grantedMem := 0 } }

/-- A zero score, standing for a missing entry of the Go `scores` map. -/
def emptyScore : Score :=
  { isolated := 0, shared := 0, colocated := 0, hints := [] }

/-- `policy.compareScores` from resources.go, verbatim: the two pools
compared are read from the policy's `pools` array at positions `i` and
`j`, even though the sort hands it positions of the *filtered* slice. -/
def compareScores (request : Request) (pools : List Pool) (scores : Nat → Score)
    (affinity : Nat → Int) (i j : Nat) : Bool :=
  let node1 := pools.getD i emptyPool
  let node2 := pools.getD j emptyPool
  let depth1 := node1.depth
  let depth2 := node2.depth
  let id1 := node1.id
  let id2 := node2.id
  let score1 := scores id1
  let score2 := scores id2
  let isolated1 := score1.isolated
  let shared1 := score1.shared
  let isolated2 := score2.isolated
  let shared2 := score2.shared
  let affinity1 := affinity id1
  let affinity2 := affinity id2
  -- 1) a node with insufficient isolated or shared capacity loses
  if isolated2 < 0 ∨ shared2 < 0 then true
  else if isolated1 < 0 ∨ shared1 < 0 then false
  -- 2) higher affinity wins
  else if affinity1 > affinity2 then true
  else if affinity2 > affinity1 then false
  -- 3) matching memory type wins
  else if request.memType ≠ memoryUnspec ∧
      node1.memType = request.memType ∧ node2.memType ≠ request.memType then true
  else if request.memType ≠ memoryUnspec ∧
      node1.memType ≠ request.memType ∧ node2.memType = request.memType then false
  else
    -- 4) better topology hint score wins
    let hScores1 := score1.hints
    let step4 : Option Bool :=
      if hScores1.length > 0 then
        let hScores2 := score2.hints
        let c1 := combineHintScores hScores1
        let c2 := combineHintScores hScores2
        let hs1 := c1.1
        let nz1 := c1.2
        let hs2 := c2.1
        let nz2 := c2.2
        if hs1 > hs2 then some true
        else if hs2 > hs1 then some false
        else if hs1 = 0 ∧ nz1 > nz2 then some true
        else if hs1 = 0 ∧ nz2 > nz1 then some false
        else if hs1 = hs2 ∧ nz1 = nz2 ∧ (hs1 ≠ 0 ∨ nz1 ≠ 0) then
          if depth1 > depth2 then some true
          else if depth1 < depth2 then some false
          else some (id1 < id2)
        else none
      else none
    match step4 with
    | some b => b
    | none =>
      -- 5) a lower node wins
      if depth1 > depth2 then true
      else if depth1 < depth2 then false
      -- 6) more isolated capacity wins
      else if request.isolate then
        if isolated1 > isolated2 then true
        else if isolated2 > isolated1 then false
        else id1 < id2
      -- 7) more slicable shared capacity wins
      else if request.full > 0 then
        if shared1 > shared2 then true
        else if shared2 > shared1 then false
        else id1 < id2
      -- 8) fewer colocated containers win
      else if score1.colocated < score2.colocated then true
      else if score2.colocated < score1.colocated then false
      else if shared1 > shared2 then true
      else if shared2 > shared1 then false
      else id1 < id2

/-- `policy.getNodeFreeMemory` from resources.go: the free memory of a
pool is the sum of `MemFree` over its physical NUMA ids (`sysFree` is the
sysfs lookup; the per-call cache only avoids repeated I/O and does not
change the value, and the model has no I/O error path). -/
def getNodeFreeMemory (sysFree : Nat → Nat) (p : Pool) : Nat :=
  (p.physIds.map sysFree).sum

/-- `policy.filterInsufficientResources` from resources.go: the loop keeps
a pool exactly when `req.memLim < nodeFreeMemory`, preserving order. -/
def filterInsufficientResources (sysFree : Nat → Nat) (req : Request)
    (originals : List Pool) : List Pool :=
  match originals with
  | [] => []
  | node :: rest =>
    if req.memLim < getNodeFreeMemory sysFree node then
      node :: filterInsufficientResources sysFree req rest
    else
      filterInsufficientResources sysFree req rest

/-- Swaps the elements at positions `j-1` and `j` of a list (a Go
`data.Swap(j, j-1)`). -/
def swapAdj {α : Type} : List α → Nat → List α
  | [], _ => []
  | [x], _ => [x]
  | x :: y :: rest, 1 => y :: x :: rest
  | x :: y :: rest, Nat.succ (Nat.succ n) => x :: swapAdj (y :: rest) (Nat.succ n)
  | l, 0 => l

/-- The inner loop of Go's insertion sort: starting at position `j`, keep
swapping downward while `less j (j-1)` holds. -/
def goSortInner {α : Type} (less : Nat → Nat → Bool) (l : List α) : Nat → List α
  | 0 => l
  | Nat.succ j => if less (Nat.succ j) j then goSortInner less (swapAdj l (Nat.succ j)) j else l

/-- The outer loop of Go's insertion sort, running positions `i, i+1, ...`
for `k` more iterations. -/
def goSortOuter {α : Type} (less : Nat → Nat → Bool) : Nat → Nat → List α → List α
  | 0, _, l => l
  | Nat.succ k, i, l => goSortOuter less k (i + 1) (goSortInner less l i)

/-- Go's `sort.Slice` for short slices (its pdqsort falls back to plain
insertion sort below 12 elements, and the comparator used here ignores
the slice contents entirely, so the insertion-sort model is exact for the
scenarios considered). -/
def goSortSlice {α : Type} (less : Nat → Nat → Bool) (l : List α) : List α :=
  goSortOuter less (l.length - 1) 1 l

/-- `policy.sortPoolsByScore` from resources.go: score every pool, filter
the insufficient ones out, and sort the filtered slice with a comparator
that receives slice positions but reads `pools` (the full array). -/
def sortPoolsByScore (pools : List Pool) (grants : List Grant) (sysFree : Nat → Nat)
    (gsc : Nat → Int) (req : Request) (aff : Nat → Int) : (Nat → Score) × List Pool :=
  let scores : Nat → Score :=
    fun nid =>
      match pools.find? (fun p => p.id = nid) with
      | some p => getScore grants (gsc nid) p req
      | none => emptyScore
  let filteredPools := filterInsufficientResources sysFree req pools
  let sorted := goSortSlice (fun i j => compareScores req pools scores aff i j) filteredPools
  (scores, sorted)

/-- The outcome of `policy.allocatePool`: Go can panic (index out of
range), fail with an error, or return a grant and the updated pools. -/
inductive AllocOutcome : Type
  | panicked : AllocOutcome
  | failed : String → AllocOutcome
  | granted : Grant → List Pool → AllocOutcome
deriving DecidableEq

/-- `policy.allocatePool` from resources.go for a non-system-namespace
container: build the request's scores and affinities, sort, take the head
of the filtered slice (`pools[0]`, which panics when no pool survived the
filter), and allocate from that pool's free supply. -/
def allocatePool (pools : List Pool) (grants : List Grant) (sysFree : Nat → Nat)
    (gsc : Nat → Int) (req : Request) (aff : Nat → Int) : AllocOutcome :=
  let sorted := (sortPoolsByScore pools grants sysFree gsc req aff).2
  match sorted with
  | [] => .panicked
  | pool :: _ =>
    match supplyAllocate pools pool.id req with
    | .error e => .failed e
    | .ok (g, st') => .granted g st'

/-- `policy.releasePool` from resources.go for a container holding a
grant: `Release` is invoked on the free supply of the grant's CPU node. -/
def releasePool (pools : List Pool) (g : Grant) : List Pool :=
  supplyRelease pools g.nodeId g

/-- The eight-rule comparison read as the spec words it, for the C2
refinement: the two *survivors* themselves are compared (their own
scores, depths, ids and affinities), not entries of any other array. -/
def compareSurvivorsSpec (request : Request) (scores : Nat → Score)
    (affinity : Nat → Int) (node1 node2 : Pool) : Bool :=
  compareScores request [node1, node2] scores affinity 0 1

/-- Ordered insertion by a boolean comparison on values, for the
spec-side sort of the C2 refinement. -/
def insertByValue {α : Type} (less : α → α → Bool) (x : α) : List α → List α
  | [] => [x]
  | y :: ys => if less x y then x :: y :: ys else y :: insertByValue less x ys

/-- A standard insertion sort by a boolean comparison on the values
themselves, used as the spec-side sort for the C2 refinement. -/
def sortByValue {α : Type} (less : α → α → Bool) : List α → List α
  | [] => []
  | x :: xs => insertByValue less x (sortByValue less xs)

theorem sortedIds_nodup (s : Finset Nat) : (sortedIds s).Nodup :=
  (List.nodup_range _).filter _

/-- The ascending enumeration enumerates exactly the given id set. -/
theorem sortedIds_toFinset (s : Finset Nat) : (sortedIds s).toFinset = s := by
  unfold sortedIds
  ext i
  simp only [List.mem_toFinset, List.mem_filter, List.mem_range, decide_eq_true_eq]
  constructor
  · exact fun h => h.2
  · intro h
    refine ⟨?_, h⟩
    have hle : id i ≤ s.sup id := Finset.le_sup h
    simp only [id_eq] at hle
    omega

theorem sortedIds_length (s : Finset Nat) : (sortedIds s).length = s.card := by
  rw [← List.toFinset_card_of_nodup (sortedIds_nodup s), sortedIds_toFinset]

theorem takeCPUs_spec (src : Finset Nat) (cnt : Nat) (t rest : Finset Nat)
    (h : takeCPUs src cnt = some (t, rest)) :
    t ⊆ src ∧ rest = src \ t ∧ t.card = cnt := by
  unfold takeCPUs at h
  split at h
  · rename_i hle
    injection h with h
    have h1 : ((sortedIds src).take cnt).toFinset = t := congrArg Prod.fst h
    have h2 : src \ ((sortedIds src).take cnt).toFinset = rest := congrArg Prod.snd h
    have hsub : ((sortedIds src).take cnt).toFinset ⊆ src := by
      intro i hi
      rw [List.mem_toFinset] at hi
      have hmem : i ∈ (sortedIds src).toFinset :=
        List.mem_toFinset.2 (List.mem_of_mem_take hi)
      rwa [sortedIds_toFinset] at hmem
    have hcard : ((sortedIds src).take cnt).toFinset.card = cnt := by
      have hnd : ((sortedIds src).take cnt).Nodup :=
        (List.take_sublist cnt _).nodup (sortedIds_nodup src)
      rw [List.toFinset_card_of_nodup hnd, List.length_take, sortedIds_length]
      omega
    subst h1
    exact ⟨hsub, h2.symm, hcard⟩
  · cases h

theorem sliceExclusive_spec (cs : Supply) (r : Request)
    (ex iso shar : Finset Nat)
    (hd : Disjoint cs.isolated cs.sharable)
    (h : sliceExclusive cs r = some (ex, iso, shar)) :
    iso = cs.isolated \ ex ∧ shar = cs.sharable \ ex ∧
      (ex ⊆ cs.isolated ∨ ex ⊆ cs.sharable) := by
  unfold sliceExclusive at h
  split at h
  · cases htk : takeCPUs cs.isolated r.full.toNat with
    | none => rw [htk] at h; cases h
    | some pr =>
      obtain ⟨t, rest⟩ := pr
      rw [htk] at h
      injection h with h
      have h1 : t = ex := congrArg Prod.fst h
      have h2 : rest = iso := congrArg Prod.fst (congrArg Prod.snd h)
      have h3 : cs.sharable = shar := congrArg Prod.snd (congrArg Prod.snd h)
      obtain ⟨hsub, hrest, _⟩ := takeCPUs_spec _ _ _ _ htk
      subst h1
      subst h2
      subst h3
      refine ⟨hrest, ?_, Or.inl hsub⟩
      rw [Finset.sdiff_eq_self_iff_disjoint.2]
      exact (Finset.disjoint_of_subset_left hsub hd).symm
  · split at h
    · cases htk : takeCPUs cs.sharable r.full.toNat with
      | none => rw [htk] at h; cases h
      | some pr =>
        obtain ⟨t, rest⟩ := pr
        rw [htk] at h
        injection h with h
        have h1 : t = ex := congrArg Prod.fst h
        have h2 : cs.isolated = iso := congrArg Prod.fst (congrArg Prod.snd h)
        have h3 : rest = shar := congrArg Prod.snd (congrArg Prod.snd h)
        obtain ⟨hsub, hrest, _⟩ := takeCPUs_spec _ _ _ _ htk
        subst h1
        subst h2
        subst h3
        refine ⟨?_, hrest, Or.inr hsub⟩
        rw [Finset.sdiff_eq_self_iff_disjoint.2]
        exact Finset.disjoint_of_subset_right hsub hd
    · injection h with h
      have h1 : (∅ : Finset Nat) = ex := congrArg Prod.fst h
      have h2 : cs.isolated = iso := congrArg Prod.fst (congrArg Prod.snd h)
      have h3 : cs.sharable = shar := congrArg Prod.snd (congrArg Prod.snd h)
      subst h1
      subst h2
      subst h3
      exact ⟨Finset.sdiff_empty.symm, Finset.sdiff_empty.symm,
        Or.inl (Finset.empty_subset _)⟩

/-- Removing granted CPUs and re-adding the owned part restores a free
bucket that contained every owned granted CPU. -/
theorem restoreBucket {s e t : Finset Nat} (h1 : s ⊆ t) (h2 : e ∩ t ⊆ s) :
    (s \ e) ∪ (e ∩ t) = s := by
  ext i
  simp only [Finset.mem_union, Finset.mem_sdiff, Finset.mem_inter]
  constructor
  · rintro (⟨hi, _⟩ | hi)
    · exact hi
    · exact h2 (Finset.mem_inter.2 hi)
  · intro hi
    by_cases he : i ∈ e
    · exact Or.inr ⟨he, h1 hi⟩
    · exact Or.inl ⟨hi, he⟩

theorem find?_pool_mem {st : List Pool} {nid : Nat} {gp : Pool}
    (h : st.find? (fun p => p.id = nid) = some gp) : gp ∈ st ∧ gp.id = nid := by
  refine ⟨List.mem_of_find?_eq_some h, ?_⟩
  have := List.find?_some h
  exact of_decide_eq_true this

theorem inSubtree_setFree (nid : Nat) (p : Pool) (s : Supply) :
    inSubtree nid { p with free := s } = inSubtree nid p := rfl

/-- C1 (amended): a `Release` following a matching `Allocate` restores the
isolated CPUs, sharable CPUs and granted milli-CPU of every pool of the
tree, but not the granted memory: the granting pool keeps the
allocation's memory limit booked, because `Release` only decrements
`grantedMem` when invoked on a pool that is the grant's memory node but
not its CPU node, and `Allocate` always makes those two the same pool.
The hypotheses are the state invariants: distinct pools have distinct
ids, free CPU buckets are within the declared ones, declared isolated and
sharable sets are disjoint, and every CPU free on the granting pool that
another pool declares is also free on that pool. -/
theorem allocate_release_restores
    (st : List Pool) (nid : Nat) (r : Request) (gp : Pool) (g : Grant) (st1 : List Pool)
    (hfind : st.find? (fun p => p.id = nid) = some gp)
    (hinj : ∀ p ∈ st, ∀ q ∈ st, p.id = q.id → p = q)
    (hfree1 : ∀ p ∈ st, p.free.isolated ⊆ p.nodeRes.isolated)
    (hfree2 : ∀ p ∈ st, p.free.sharable ⊆ p.nodeRes.sharable)
    (hdisj : ∀ p ∈ st, Disjoint p.nodeRes.isolated p.nodeRes.sharable)
    (hcons : ∀ p ∈ st, p.id ≠ nid →
      (gp.free.isolated ∪ gp.free.sharable) ∩ p.nodeRes.isolated ⊆ p.free.isolated ∧
      (gp.free.isolated ∪ gp.free.sharable) ∩ p.nodeRes.sharable ⊆ p.free.sharable)
    (hfrac : 0 ≤ r.fraction)
    (hAlloc : supplyAllocate st nid r = .ok (g, st1)) :
    supplyRelease st1 g.nodeId g =
      st.map (fun p => if p.id = nid then
          { p with free := { p.free with grantedMem := addU64 p.free.grantedMem r.memLim } }
        else p) := by
  obtain ⟨hgp_mem, hgp_id⟩ := find?_pool_mem hfind
  unfold supplyAllocate at hAlloc
  rw [hfind] at hAlloc
  simp only at hAlloc
  cases hsl : sliceExclusive gp.free r with
  | none => rw [hsl] at hAlloc; cases hAlloc
  | some tr =>
    obtain ⟨ex, iso, shar⟩ := tr
    rw [hsl] at hAlloc
    simp only at hAlloc
    split at hAlloc
    · cases hAlloc
    · split at hAlloc
      · cases hAlloc
      · injection hAlloc with hAlloc
        have hg : newGrant gp r.containerId ex r.fraction r.memType r.memLim = g :=
          congrArg Prod.fst hAlloc
        have hst1 : ((st.map (fun p =>
            if p.id = nid then { p with free := allocatedSupply gp.free r iso shar } else p)).map
              (fun p => if inSubtree nid p then
                accountAllocate (newGrant gp r.containerId ex r.fraction r.memType r.memLim) p
              else p)) = st1 :=
          congrArg Prod.snd hAlloc
        subst hg
        subst hst1
        have hdfree : Disjoint gp.free.isolated gp.free.sharable :=
          Disjoint.mono (hfree1 gp hgp_mem) (hfree2 gp hgp_mem) (hdisj gp hgp_mem)
        obtain ⟨hiso, hshar, hcases⟩ := sliceExclusive_spec gp.free r ex iso shar hdfree hsl
        have hexu : ex ⊆ gp.free.isolated ∪ gp.free.sharable :=
          hcases.elim (fun h => h.trans Finset.subset_union_left)
            (fun h => h.trans Finset.subset_union_right)
        have hGnode : (newGrant gp r.containerId ex r.fraction r.memType r.memLim).nodeId = nid := by
          rw [← hgp_id]; rfl
        have hGex : (newGrant gp r.containerId ex r.fraction r.memType r.memLim).exclusive = ex := rfl
        have hGport :
            (newGrant gp r.containerId ex r.fraction r.memType r.memLim).portion = r.fraction := rfl
        unfold supplyRelease
        rw [if_pos rfl]
        rw [List.map_map, List.map_map, List.map_map]
        refine List.map_congr_left ?_
        intro p hp
        simp only [Function.comp_apply]
        by_cases hpid : p.id = nid
        · have hpgp : p = gp := hinj p hp gp hgp_mem (by rw [hpid, hgp_id])
          subst hpgp
          have hGn : (newGrant p r.containerId ex r.fraction r.memType r.memLim).nodeId = p.id := rfl
          have hRIso : (p.free.isolated \ ex) ∪ (ex ∩ p.nodeRes.isolated) = p.free.isolated := by
            rcases hcases with hc | hc
            · rw [Finset.inter_eq_left.2 (hc.trans (hfree1 p hp))]
              exact Finset.sdiff_union_of_subset hc
            · rw [Finset.disjoint_iff_inter_eq_empty.1
                (Disjoint.mono_left (hc.trans (hfree2 p hp)) (hdisj p hp).symm)]
              rw [Finset.union_empty, Finset.sdiff_eq_self_iff_disjoint.2]
              exact (Disjoint.mono (hc.trans (hfree2 p hp)) (hfree1 p hp) (hdisj p hp).symm).symm
          have hRShar : (p.free.sharable \ ex) ∪ (ex \ p.nodeRes.isolated) =
              p.free.sharable := by
            rcases hcases with hc | hc
            · rw [Finset.sdiff_eq_empty_iff_subset.2 (hc.trans (hfree1 p hp)),
                Finset.union_empty, Finset.sdiff_eq_self_iff_disjoint.2]
              exact (Disjoint.mono (hc.trans (hfree1 p hp)) (hfree2 p hp) (hdisj p hp)).symm
            · rw [Finset.sdiff_eq_self_iff_disjoint.2
                (Disjoint.mono_left (hc.trans (hfree2 p hp)) (hdisj p hp).symm)]
              exact Finset.sdiff_union_of_subset hc
          have hRGrant : (if r.fraction > 0 then p.free.granted + r.fraction
              else p.free.granted) - r.fraction = p.free.granted := by
            by_cases hf : r.fraction > 0
            · rw [if_pos hf]; ring
            · rw [if_neg hf]; omega
          simp only [hpid, hGn, inSubtree, accountAllocate, accountRelease, allocatedSupply,
            hGex, hGport, hiso, hshar]
          simp [hRIso, hRShar, hRGrant]
        · rw [if_neg hpid]
          have hGn : (newGrant gp r.containerId ex r.fraction r.memType r.memLim).nodeId = nid :=
            hGnode
          by_cases hsubp : inSubtree nid p = true
          · have hpid2 : ¬ p.id = (newGrant gp r.containerId ex r.fraction r.memType
                r.memLim).nodeId := by rw [hGn]; exact hpid
            have hsimpl : (ex ∩ (p.nodeRes.isolated ∪ p.nodeRes.sharable)) ∩ p.nodeRes.isolated =
                ex ∩ p.nodeRes.isolated := by
              rw [Finset.inter_assoc, Finset.union_inter_cancel_left]
            have hsimpr : (ex ∩ (p.nodeRes.isolated ∪ p.nodeRes.sharable)) ∩ p.nodeRes.sharable =
                ex ∩ p.nodeRes.sharable := by
              rw [Finset.inter_assoc, Finset.union_inter_cancel_right]
            have hDIso : (p.free.isolated \ ex) ∪ (ex ∩ p.nodeRes.isolated) = p.free.isolated :=
              restoreBucket (hfree1 p hp)
                ((Finset.inter_subset_inter_right hexu).trans (hcons p hp hpid).1)
            have hDShar : (p.free.sharable \ ex) ∪ (ex ∩ p.nodeRes.sharable) = p.free.sharable :=
              restoreBucket (hfree2 p hp)
                ((Finset.inter_subset_inter_right hexu).trans (hcons p hp hpid).2)
            simp only [if_neg hpid, hGn, hsubp, accountAllocate, accountRelease, hGex,
              inSubtree_setFree]
            simp [hpid, hsubp, hsimpl, hsimpr, hDIso, hDShar]
            intro hfalse
            rw [inSubtree_setFree, hsubp] at hfalse
            simp at hfalse
          · simp only [if_neg hpid, hGn, if_neg hsubp]

theorem accountAllocate_id (g : Grant) (p : Pool) : (accountAllocate g p).id = p.id := by
  unfold accountAllocate
  split <;> rfl

theorem accountAllocate_free_granted (g : Grant) (p : Pool) :
    (accountAllocate g p).free.granted = p.free.granted := by
  unfold accountAllocate
  split <;> rfl

theorem tdiv_eq_ediv_nonneg (a b : Int) (h : 0 ≤ a) (h2 : 0 ≤ b) :
    Int.tdiv a b = a / b := by
  match a, h with
  | Int.ofNat m, _ =>
    match b, h2 with
    | Int.ofNat n, _ => rfl

theorem sliceExclusive_shar_bound (cs : Supply) (r : Request)
    (ex iso shar : Finset Nat)
    (hlow : 0 ≤ cs.granted)
    (hup : cs.granted ≤ 1000 * (cs.sharable.card : Int))
    (h : sliceExclusive cs r = some (ex, iso, shar)) :
    cs.granted ≤ 1000 * (shar.card : Int) := by
  unfold sliceExclusive at h
  split at h
  · cases htk : takeCPUs cs.isolated r.full.toNat with
    | none => rw [htk] at h; cases h
    | some pr =>
      obtain ⟨t, rest⟩ := pr
      rw [htk] at h
      injection h with h
      have h3 : cs.sharable = shar := congrArg Prod.snd (congrArg Prod.snd h)
      rw [← h3]
      exact hup
  · split at h
    · rename_i hguard
      obtain ⟨hfull, hdiv⟩ := hguard
      cases htk : takeCPUs cs.sharable r.full.toNat with
      | none => rw [htk] at h; cases h
      | some pr =>
        obtain ⟨t, rest⟩ := pr
        rw [htk] at h
        injection h with h
        have h3 : rest = shar := congrArg Prod.snd (congrArg Prod.snd h)
        obtain ⟨hsub, hrest, hcard⟩ := takeCPUs_spec _ _ _ _ htk
        rw [← h3]
        have hnum : 0 ≤ 1000 * (cs.sharable.card : Int) - cs.granted := by omega
        have hdiv2 : Int.tdiv (1000 * (cs.sharable.card : Int) - cs.granted) 1000 =
            (1000 * (cs.sharable.card : Int) - cs.granted) / 1000 :=
          tdiv_eq_ediv_nonneg _ _ hnum (by decide)
        rw [hdiv2] at hdiv
        have hmul : (r.full + 1) * 1000 ≤ 1000 * (cs.sharable.card : Int) - cs.granted :=
          (Int.le_ediv_iff_mul_le (by decide)).1 (by omega)
        have hle : t.card ≤ cs.sharable.card := Finset.card_le_card hsub
        rw [hcard] at hle
        have hcard2 : (rest.card : Int) = (cs.sharable.card : Int) - r.full := by
          rw [hrest, Finset.card_sdiff hsub, hcard]
          omega
        omega
    · injection h with h
      have h3 : cs.sharable = shar := congrArg Prod.snd (congrArg Prod.snd h)
      rw [← h3]
      exact hup

/-- C6 (amended): a successful `Allocate` preserves the granted-milli-CPU
bounds `0 ≤ granted ≤ 1000 · |sharable|` on the granting pool itself.
The claim's unrestricted invariant is false: `AccountAllocate` for a
grant on another pool shrinks a pool's sharable set without touching its
granted milli-CPU, so the upper bound only holds pool-locally. -/
theorem allocate_preserves_granted_bound
    (st : List Pool) (nid : Nat) (r : Request) (gp : Pool) (g : Grant) (st1 : List Pool)
    (hfind : st.find? (fun p => p.id = nid) = some gp)
    (hinj : ∀ p ∈ st, ∀ q ∈ st, p.id = q.id → p = q)
    (hlow : 0 ≤ gp.free.granted)
    (hup : gp.free.granted ≤ 1000 * (gp.free.sharable.card : Int))
    (hfrac : 0 ≤ r.fraction)
    (hAlloc : supplyAllocate st nid r = .ok (g, st1)) :
    ∀ p ∈ st1, p.id = nid →
      0 ≤ p.free.granted ∧ p.free.granted ≤ 1000 * (p.free.sharable.card : Int) := by
  obtain ⟨hgp_mem, hgp_id⟩ := find?_pool_mem hfind
  unfold supplyAllocate at hAlloc
  rw [hfind] at hAlloc
  simp only at hAlloc
  cases hsl : sliceExclusive gp.free r with
  | none => rw [hsl] at hAlloc; cases hAlloc
  | some tr =>
    obtain ⟨ex, iso, shar⟩ := tr
    rw [hsl] at hAlloc
    simp only at hAlloc
    split at hAlloc
    · cases hAlloc
    · split at hAlloc
      · cases hAlloc
      · rename_i hfracGuard hmemGuard
        injection hAlloc with hAlloc
        have hst1 : ((st.map (fun p =>
            if p.id = nid then { p with free := allocatedSupply gp.free r iso shar } else p)).map
              (fun p => if inSubtree nid p then
                accountAllocate (newGrant gp r.containerId ex r.fraction r.memType r.memLim) p
              else p)) = st1 :=
          congrArg Prod.snd hAlloc
        subst hst1
        intro p hp hpid
        obtain ⟨q1, hq1, rfl⟩ := List.mem_map.1 hp
        obtain ⟨q, hq, rfl⟩ := List.mem_map.1 hq1
        have hshar_bound : gp.free.granted ≤ 1000 * (shar.card : Int) :=
          sliceExclusive_shar_bound gp.free r ex iso shar hlow hup hsl
        by_cases hqid : q.id = nid
        · have hqgp : q = gp := hinj q hq gp hgp_mem (by rw [hqid, hgp_id])
          subst hqgp
          rw [if_pos hqid]
          have hskip : accountAllocate (newGrant q r.containerId ex r.fraction r.memType r.memLim)
              { q with free := allocatedSupply q.free r iso shar } =
              { q with free := allocatedSupply q.free r iso shar } := by
            unfold accountAllocate
            rw [if_pos (show ({ q with free := allocatedSupply q.free r iso shar } : Pool).id =
              (newGrant q r.containerId ex r.fraction r.memType r.memLim).nodeId from rfl)]
          have hbounds : 0 ≤ (allocatedSupply q.free r iso shar).granted ∧
              (allocatedSupply q.free r iso shar).granted ≤
                1000 * ((allocatedSupply q.free r iso shar).sharable.card : Int) := by
            simp only [allocatedSupply]
            constructor
            · by_cases hf : r.fraction > 0
              · simp only [if_pos hf]; omega
              · simp only [if_neg hf]; omega
            · by_cases hf : r.fraction > 0
              · simp only [if_pos hf]
                have hng := hfracGuard
                push_neg at hng
                have h2 := hng hf
                omega
              · simp only [if_neg hf]
                omega
          rw [inSubtree_setFree]
          split
          · rw [hskip]
            exact hbounds
          · exact hbounds
        · exfalso
          apply hqid
          rw [← hpid]
          rw [if_neg hqid]
          split
          · rw [accountAllocate_id]
          · rfl

theorem tdiv_nonpos_of_nonpos (a b : Int) (ha : a ≤ 0) (hb : 0 ≤ b) : Int.tdiv a b ≤ 0 := by
  match a, b, hb with
  | Int.ofNat m, Int.ofNat n, _ =>
    have ha2 : (m : Int) ≤ 0 := ha
    have hm : m = 0 := by omega
    subst hm
    show Int.tdiv 0 (Int.ofNat n) ≤ 0
    rw [Int.zero_tdiv]
  | Int.negSucc m, Int.ofNat n, _ =>
    show -(Int.ofNat ((m+1) / n)) ≤ 0
    exact Int.neg_nonpos_of_nonneg (Int.ofNat_nonneg _)

theorem sliceExclusive_branchA (cs : Supply) (r : Request)
    (h1 : r.full > 0) (h2 : (cs.isolated.card : Int) ≥ r.full) :
    ∃ ex, sliceExclusive cs r = some (ex, cs.isolated \ ex, cs.sharable) ∧
      ex ⊆ cs.isolated ∧ (ex.card : Int) = r.full := by
  have hle : r.full.toNat ≤ cs.isolated.card := by omega
  have htk : takeCPUs cs.isolated r.full.toNat =
      some (((sortedIds cs.isolated).take r.full.toNat).toFinset,
        cs.isolated \ ((sortedIds cs.isolated).take r.full.toNat).toFinset) := by
    unfold takeCPUs
    rw [if_pos hle]
  obtain ⟨hsub, _, hcard⟩ := takeCPUs_spec _ _ _ _ htk
  refine ⟨((sortedIds cs.isolated).take r.full.toNat).toFinset, ?_, hsub, ?_⟩
  · unfold sliceExclusive
    rw [if_pos ⟨h1, h2⟩, htk]
  · rw [hcard]
    omega

theorem sliceExclusive_branchB (cs : Supply) (r : Request)
    (h1 : r.full > 0) (h2 : ¬ ((cs.isolated.card : Int) ≥ r.full))
    (h3 : Int.tdiv (1000 * (cs.sharable.card : Int) - cs.granted) 1000 > r.full)
    (hg : 0 ≤ cs.granted) :
    ∃ ex, sliceExclusive cs r = some (ex, cs.isolated, cs.sharable \ ex) ∧
      ex ⊆ cs.sharable ∧ (ex.card : Int) = r.full := by
  have hnum : 0 ≤ 1000 * (cs.sharable.card : Int) - cs.granted := by
    by_contra hneg
    push_neg at hneg
    have := tdiv_nonpos_of_nonpos (1000 * (cs.sharable.card : Int) - cs.granted) 1000
      (by omega) (by decide)
    omega
  have hdiv2 : Int.tdiv (1000 * (cs.sharable.card : Int) - cs.granted) 1000 =
      (1000 * (cs.sharable.card : Int) - cs.granted) / 1000 :=
    tdiv_eq_ediv_nonneg _ _ hnum (by decide)
  rw [hdiv2] at h3
  have hmul : (r.full + 1) * 1000 ≤ 1000 * (cs.sharable.card : Int) - cs.granted :=
    (Int.le_ediv_iff_mul_le (by decide)).1 (by omega)
  have hle : r.full.toNat ≤ cs.sharable.card := by omega
  have htk : takeCPUs cs.sharable r.full.toNat =
      some (((sortedIds cs.sharable).take r.full.toNat).toFinset,
        cs.sharable \ ((sortedIds cs.sharable).take r.full.toNat).toFinset) := by
    unfold takeCPUs
    rw [if_pos hle]
  obtain ⟨hsub, _, hcard⟩ := takeCPUs_spec _ _ _ _ htk
  refine ⟨((sortedIds cs.sharable).take r.full.toNat).toFinset, ?_, hsub, ?_⟩
  · unfold sliceExclusive
    rw [if_neg (by rintro ⟨_, hc⟩; exact h2 hc), if_pos ⟨h1, hdiv2 ▸ h3⟩, htk]
  · rw [hcard]
    omega

theorem sliceExclusive_fallthrough (cs : Supply) (r : Request)
    (h2 : ¬ (r.full > 0 ∧ (cs.isolated.card : Int) ≥ r.full))
    (h3 : ¬ (r.full > 0 ∧
      Int.tdiv (1000 * (cs.sharable.card : Int) - cs.granted) 1000 > r.full)) :
    sliceExclusive cs r = some (∅, cs.isolated, cs.sharable) := by
  unfold sliceExclusive
  rw [if_neg h2, if_neg h3]

/-- C3 (amended): the exclusive-CPU step of `Allocate` as the code
implements it: isolated CPUs are sliced whenever the isolated set is
large enough, without consulting the isolation opt-in; otherwise sharable
CPUs are sliced when enough unsliced capacity remains; otherwise the
allocation proceeds with no exclusive CPUs and no error (there is no
insufficient-CPU failure in this step). -/
theorem allocate_exclusive_behavior
    (st : List Pool) (nid : Nat) (r : Request) (gp : Pool)
    (hfind : st.find? (fun p => p.id = nid) = some gp)
    (hg : 0 ≤ gp.free.granted) :
    (∀ g st1, supplyAllocate st nid r = .ok (g, st1) →
      (r.full > 0 ∧ (gp.free.isolated.card : Int) ≥ r.full →
        g.exclusive ⊆ gp.free.isolated ∧ (g.exclusive.card : Int) = r.full) ∧
      (r.full > 0 ∧ ¬ ((gp.free.isolated.card : Int) ≥ r.full) ∧
          Int.tdiv (1000 * (gp.free.sharable.card : Int) - gp.free.granted) 1000 > r.full →
        g.exclusive ⊆ gp.free.sharable ∧ (g.exclusive.card : Int) = r.full) ∧
      (¬ (r.full > 0 ∧ (gp.free.isolated.card : Int) ≥ r.full) ∧
          ¬ (r.full > 0 ∧
            Int.tdiv (1000 * (gp.free.sharable.card : Int) - gp.free.granted) 1000 > r.full) →
        g.exclusive = ∅)) ∧
    (¬ (r.full > 0 ∧ (gp.free.isolated.card : Int) ≥ r.full) →
      ¬ (r.full > 0 ∧
        Int.tdiv (1000 * (gp.free.sharable.card : Int) - gp.free.granted) 1000 > r.full) →
      ¬ (r.fraction > 0 ∧
        1000 * (gp.free.sharable.card : Int) - gp.free.granted < r.fraction) →
      ¬ (r.memLim >
        subU64 (gp.free.slowMem + gp.free.normMem + gp.free.fastMem) gp.free.grantedMem) →
      ∃ g st1, supplyAllocate st nid r = .ok (g, st1) ∧ g.exclusive = ∅) := by
  constructor
  · intro g st1 hAlloc
    unfold supplyAllocate at hAlloc
    rw [hfind] at hAlloc
    simp only at hAlloc
    cases hsl : sliceExclusive gp.free r with
    | none => rw [hsl] at hAlloc; cases hAlloc
    | some tr =>
      obtain ⟨ex, iso, shar⟩ := tr
      rw [hsl] at hAlloc
      simp only at hAlloc
      split at hAlloc
      · cases hAlloc
      · split at hAlloc
        · cases hAlloc
        · injection hAlloc with hAlloc
          have hfst : newGrant gp r.containerId ex r.fraction r.memType r.memLim = g :=
            congrArg Prod.fst hAlloc
          have hgex : g.exclusive = ex := by rw [← hfst]; rfl
          refine ⟨?_, ?_, ?_⟩
          · rintro ⟨h1, h2⟩
            obtain ⟨exA, hslA, hsubA, hcardA⟩ := sliceExclusive_branchA gp.free r h1 h2
            rw [hslA] at hsl
            injection hsl with hsl
            have hexA : exA = ex := congrArg Prod.fst hsl
            rw [hgex, ← hexA]
            exact ⟨hsubA, hcardA⟩
          · rintro ⟨h1, h2, h3⟩
            obtain ⟨exB, hslB, hsubB, hcardB⟩ := sliceExclusive_branchB gp.free r h1 h2 h3 hg
            rw [hslB] at hsl
            injection hsl with hsl
            have hexB : exB = ex := congrArg Prod.fst hsl
            rw [hgex, ← hexB]
            exact ⟨hsubB, hcardB⟩
          · rintro ⟨h2, h3⟩
            have hslC := sliceExclusive_fallthrough gp.free r h2 h3
            rw [hslC] at hsl
            injection hsl with hsl
            have hexC : (∅ : Finset Nat) = ex := congrArg Prod.fst hsl
            rw [hgex, ← hexC]
  · intro h2 h3 hfr hmem
    have hslC := sliceExclusive_fallthrough gp.free r h2 h3
    have hok : supplyAllocate st nid r =
        .ok (newGrant gp r.containerId ∅ r.fraction r.memType r.memLim,
          ((st.map (fun p => if p.id = nid then
              { p with free := allocatedSupply gp.free r gp.free.isolated gp.free.sharable }
            else p)).map
            (fun p => if inSubtree nid p then
              accountAllocate (newGrant gp r.containerId ∅ r.fraction r.memType r.memLim) p
            else p))) := by
      unfold supplyAllocate
      rw [hfind]
      simp only
      rw [hslC]
      simp only
      rw [if_neg hfr, if_neg hmem]
    exact ⟨_, _, hok, rfl⟩

/-- C7 (amended): closed form of the `GetScore` capacity fields as the
code computes them: `isolated = |isolatedCPUs| - full` when isolate is
set, else 0; `shared = 1000 * |sharableCPUs| - GrantedSharedCPU`, minus
`1000 * full` when the request is not isolated or its isolated remainder
is negative, minus `fraction` (or 1 when both full and fraction are 0,
not `max(fraction, 1)` in general). -/
theorem getScore_formula (grants : List Grant) (gsc : Int) (p : Pool) (r : Request) :
    (getScore grants gsc p r).isolated =
      (if r.isolate then (p.free.isolated.card : Int) - r.full else 0) ∧
    (getScore grants gsc p r).shared =
      1000 * (p.free.sharable.card : Int) - gsc
        - (if ¬ r.isolate ∨ (r.isolate ∧ (p.free.isolated.card : Int) - r.full < 0)
            then 1000 * r.full else 0)
        - (if r.full = 0 ∧ r.fraction = 0 then 1 else r.fraction) := by
  refine ⟨?_, ?_⟩ <;>
    by_cases hiso : r.isolate <;>
    by_cases hneg : (p.free.isolated.card : Int) - r.full < 0 <;>
    by_cases hz : r.full = 0 ∧ r.fraction = 0 <;>
    simp [getScore, hiso, hneg, hz] <;>
    first
    | ring
    | omega

/-- C4 (amended): membership in the memory filter: a pool survives
exactly when its free memory (summed over its physical NUMA ids)
strictly exceeds `memLim`; a pool whose free memory exactly equals
`memLim` is dropped, not kept. -/
theorem filterInsufficientResources_mem (sysFree : Nat → Nat) (req : Request)
    (originals : List Pool) (p : Pool) :
    p ∈ filterInsufficientResources sysFree req originals ↔
      p ∈ originals ∧ req.memLim < getNodeFreeMemory sysFree p := by
  induction originals with
  | nil => simp [filterInsufficientResources]
  | cons q rest ih =>
    unfold filterInsufficientResources
    split
    · rename_i hq
      simp only [List.mem_cons, ih]
      constructor
      · rintro (rfl | ⟨hm, hf⟩)
        · exact ⟨Or.inl rfl, hq⟩
        · exact ⟨Or.inr hm, hf⟩
      · rintro ⟨rfl | hm, hf⟩
        · exact Or.inl rfl
        · exact Or.inr ⟨hm, hf⟩
    · rename_i hq
      rw [ih]
      simp only [List.mem_cons]
      constructor
      · rintro ⟨hm, hf⟩
        exact ⟨Or.inr hm, hf⟩
      · rintro ⟨rfl | hm, hf⟩
        · exact absurd hf hq
        · exact ⟨hm, hf⟩

/-- A free or declared supply literal for the concrete scenarios. -/
def mkSupply (iso shar : Finset Nat) (granted : Int) (mem gmem : Nat) : Supply :=
  { isolated := iso, sharable := shar, granted := granted,
    normMem := mem, slowMem := 0, fastMem := 0, grantedMem := gmem }

/-- A pool literal for the concrete scenarios. -/
def mkPool (pid : Nat) (path : List Nat) (depth : Nat) (phys : List Nat)
    (res free : Supply) : Pool :=
  { id := pid, path := path, depth := depth, memType := memoryDRAM, physIds := phys,
    memsets := [(memoryDRAM, {0})], hintScores := [], nodeRes := res, free := free }

/-- A request literal for the concrete scenarios. -/
def mkReq (full fraction : Int) (isolate : Bool) (memLim : Nat) : Request :=
  { containerId := 1, full := full, fraction := fraction, isolate := isolate,
    memReq := memLim, memLim := memLim, memType := memoryUnspec, elevate := 0,
    hintProviders := [] }

/-- C1 scenario: a two-pool tree with one exclusive, fractional and
memory-consuming allocation on the root. -/
def rootW : Pool :=
  mkPool 0 [] 0 [0] (mkSupply ∅ {0,1,2,3} 0 100 0) (mkSupply ∅ {0,1,2,3} 0 100 0)

def childW : Pool :=
  mkPool 1 [0] 1 [0] (mkSupply ∅ {0,1} 0 100 0) (mkSupply ∅ {0,1} 0 100 0)

def stW : List Pool := [rootW, childW]

def rW : Request := mkReq 1 250 false 10

/-- The grant the C1 scenario's allocation returns. -/
def gW : Grant :=
  { containerId := 1, nodeId := 0, memNodeId := 0, exclusive := {0}, portion := 250,
    memType := memoryUnspec, memset := {0}, memlimit := 10 }

/-- The pool state after the C1 scenario's allocation. -/
def stW1 : List Pool :=
  [{ rootW with free := mkSupply ∅ {1,2,3} 250 100 10 },
   { childW with free := mkSupply ∅ {1} 0 100 0 }]

/-- C1 counterexample: after `Allocate` and the matching `Release` the
tree is not restored: the granting pool keeps the request's 10 bytes of
memory booked in `grantedMem` (it was 0 before the allocation). -/
theorem claim1_counterexample :
    supplyAllocate stW 0 rW = Except.ok (gW, stW1) ∧
    (supplyRelease stW1 gW.nodeId gW).map (fun (p : Pool) => p.free.grantedMem) = [10, 0] ∧
    stW.map (fun (p : Pool) => p.free.grantedMem) = [0, 0] ∧
    (supplyRelease stW1 gW.nodeId gW).map (fun (p : Pool) => p.free.grantedMem) ≠
      stW.map (fun (p : Pool) => p.free.grantedMem) := by decide

/-- C1 witness: the amended round-trip identity at the concrete two-pool
scenario, every hypothesis discharged by evaluation. -/
theorem allocate_release_restores_witness :
    supplyRelease stW1 gW.nodeId gW =
      stW.map (fun p => if p.id = 0 then
          { p with free := { p.free with grantedMem := addU64 p.free.grantedMem rW.memLim } }
        else p) :=
  allocate_release_restores stW 0 rW rootW gW stW1 (by decide) (by decide) (by decide)
    (by decide) (by decide) (by decide) (by decide) (by decide)

/-- C2 scenario: the root owns NUMA nodes 0 and 1, its children one
each; NUMA node 0 has too little free memory, so the filter drops the
first child and the filtered slice is [root, child 2]. -/
def rootC2 : Pool :=
  mkPool 0 [] 0 [0, 1] (mkSupply ∅ {0,1,2,3} 0 100 0) (mkSupply ∅ {0,1,2,3} 0 100 0)

def n1C2 : Pool :=
  mkPool 1 [0] 1 [0] (mkSupply ∅ {0,1} 0 100 0) (mkSupply ∅ {0,1} 0 100 0)

def n2C2 : Pool :=
  mkPool 2 [0] 1 [1] (mkSupply ∅ {2,3} 0 100 0) (mkSupply ∅ {2,3} 0 100 0)

def poolsC2 : List Pool := [rootC2, n1C2, n2C2]

def sysFreeC2 : Nat → Nat := fun i => if i = 0 then 5 else 100

def reqC2 : Request := mkReq 0 500 false 10

/-- C2 affinities: child 2 has the highest container affinity and should
win the sort. -/
def affC2 : Nat → Int := fun i => if i = 2 then 10 else if i = 0 then 5 else 0

def scoresC2 : Nat → Score :=
  (sortPoolsByScore poolsC2 [] sysFreeC2 (fun _ => 0) reqC2 affC2).1

/-- C2 (code bug): `compareScores` indexes the policy's full `pools`
array with positions of the *filtered* slice, so the sort compares the
wrong pools (here the dropped child 1 in place of child 2) and the code
ranks the root first, while comparing the survivors themselves by the
same eight rules ranks child 2 (the highest-affinity survivor) first. -/
theorem claim2_bug :
    ((sortPoolsByScore poolsC2 [] sysFreeC2 (fun _ => 0) reqC2 affC2).2.map Pool.id
      = [0, 2]) ∧
    ((sortByValue (fun a b => compareSurvivorsSpec reqC2 scoresC2 affC2 a b)
        (filterInsufficientResources sysFreeC2 reqC2 poolsC2)).map Pool.id = [2, 0]) ∧
    affC2 2 > affC2 0 := by decide

/-- C3 scenario A: two isolated CPUs are free and the request asks for
two full CPUs without opting in to isolation. -/
def pC3 : Pool :=
  mkPool 0 [] 0 [0] (mkSupply {0,1} {2,3} 0 100 0) (mkSupply {0,1} {2,3} 0 100 0)

def rC3 : Request := mkReq 2 0 false 0

/-- The grant the C3 scenario A allocation returns. -/
def gC3 : Grant :=
  { containerId := 1, nodeId := 0, memNodeId := 0, exclusive := {0,1}, portion := 0,
    memType := memoryUnspec, memset := {0}, memlimit := 0 }

/-- The pool state after the C3 scenario A allocation. -/
def stC3 : List Pool := [{ pC3 with free := mkSupply ∅ {2,3} 0 100 0 }]

/-- C3 scenario B: no isolated CPUs, one sharable CPU, and a request for
two full CPUs with the isolation opt-in set. -/
def pC3b : Pool :=
  mkPool 0 [] 0 [0] (mkSupply ∅ {0} 0 100 0) (mkSupply ∅ {0} 0 100 0)

def rC3b : Request := mkReq 2 0 true 0

/-- The grant the C3 scenario B allocation returns: no exclusive CPUs at
all, yet no error. -/
def gC3b : Grant :=
  { containerId := 1, nodeId := 0, memNodeId := 0, exclusive := ∅, portion := 0,
    memType := memoryUnspec, memset := {0}, memlimit := 0 }

/-- C3 counterexample: (A) the code slices exclusive CPUs from the
isolated set although the request did not opt in to isolation; (B) when
neither set suffices it succeeds with an empty exclusive set instead of
failing with an insufficient-CPU error. -/
theorem claim3_counterexample :
    (rC3.isolate = false ∧
      supplyAllocate [pC3] 0 rC3 = Except.ok (gC3, stC3) ∧
      gC3.exclusive = pC3.free.isolated ∧ gC3.exclusive.card = 2) ∧
    (rC3b.isolate = true ∧ rC3b.full = 2 ∧
      pC3b.free.isolated.card = 0 ∧ pC3b.free.sharable.card = 1 ∧
      supplyAllocate [pC3b] 0 rC3b = Except.ok (gC3b, [pC3b]) ∧
      gC3b.exclusive = ∅) := by decide

/-- C3 witness: the amended exclusive-slicing characterization at
scenario A: the granted exclusive CPUs come from the isolated set and
number exactly `full`. -/
theorem allocate_exclusive_behavior_witness :
    gC3.exclusive ⊆ pC3.free.isolated ∧ (gC3.exclusive.card : Int) = rC3.full :=
  ((allocate_exclusive_behavior [pC3] 0 rC3 pC3 (by decide) (by decide)).1 gC3 stC3
    (by decide)).1 ⟨by decide, by decide⟩

/-- C4/C5 scenario: one pool whose free memory (50) exactly equals the
request's memory limit. -/
def pC45 : Pool :=
  mkPool 0 [] 0 [0] (mkSupply ∅ {0,1} 0 100 0) (mkSupply ∅ {0,1} 0 100 0)

def sysFreeC45 : Nat → Nat := fun _ => 50

def rC45 : Request := mkReq 0 100 false 50

/-- C4 counterexample: a pool whose free memory exactly equals
`request.memLim` is dropped by the filter, not kept. -/
theorem claim4_counterexample :
    getNodeFreeMemory sysFreeC45 pC45 = rC45.memLim ∧
    filterInsufficientResources sysFreeC45 rC45 [pC45] = [] := by decide

/-- C5 (code bug): when no pool survives the memory filter,
`allocatePool` reads `pools[0]` of the empty filtered slice and panics
instead of returning an insufficient-resources error. -/
theorem claim5_bug :
    filterInsufficientResources sysFreeC45 rC45 [pC45] = [] ∧
    allocatePool [pC45] [] sysFreeC45 (fun _ => 0) rC45 (fun _ => 0)
      = AllocOutcome.panicked := by decide

/-- C6 scenario: a fractional grant of 1500 milli-CPU on the child, then
an exclusive-CPU grant on the root whose accounting shrinks the child's
sharable set to one CPU. -/
def rootC6 : Pool :=
  mkPool 0 [] 0 [0] (mkSupply ∅ {0,1,2,3} 0 100 0) (mkSupply ∅ {0,1,2,3} 0 100 0)

def p1C6 : Pool :=
  mkPool 1 [0] 1 [0] (mkSupply ∅ {0,1} 0 100 0) (mkSupply ∅ {0,1} 0 100 0)

def stC6 : List Pool := [rootC6, p1C6]

def rC6a : Request := mkReq 0 1500 false 0

def rC6b : Request := mkReq 1 0 false 0

/-- The grant of the C6 scenario's first (fractional) allocation. -/
def gC6a : Grant :=
  { containerId := 1, nodeId := 1, memNodeId := 1, exclusive := ∅, portion := 1500,
    memType := memoryUnspec, memset := {0}, memlimit := 0 }

/-- The pool state after the C6 scenario's first allocation. -/
def stC6mid : List Pool :=
  [rootC6, { p1C6 with free := mkSupply ∅ {0,1} 1500 100 0 }]

/-- The grant of the C6 scenario's second (exclusive) allocation. -/
def gC6b : Grant :=
  { containerId := 1, nodeId := 0, memNodeId := 0, exclusive := {0}, portion := 0,
    memType := memoryUnspec, memset := {0}, memlimit := 0 }

/-- The pool state after the C6 scenario's second allocation. -/
def stC6fin : List Pool :=
  [{ rootC6 with free := mkSupply ∅ {1,2,3} 0 100 0 },
   { p1C6 with free := mkSupply ∅ {1} 1500 100 0 }]

/-- C6 counterexample: after two successful allocations the child pool
holds 1500 granted milli-CPU against a sharable set of one CPU, so the
claimed invariant `granted ≤ 1000 · |sharable|` fails on it. -/
theorem claim6_counterexample :
    supplyAllocate stC6 1 rC6a = Except.ok (gC6a, stC6mid) ∧
    supplyAllocate stC6mid 0 rC6b = Except.ok (gC6b, stC6fin) ∧
    (∃ p ∈ stC6fin,
      ¬ (0 ≤ p.free.granted ∧ p.free.granted ≤ 1000 * (p.free.sharable.card : Int))) := by
  decide

/-- C6 witness scenario: one pool with 500 milli-CPU already granted
takes a fractional request of 300 more. -/
def pB : Pool :=
  mkPool 0 [] 0 [0] (mkSupply ∅ {0,1} 500 100 0) (mkSupply ∅ {0,1} 500 100 0)

def stB : List Pool := [pB]

def rB : Request := mkReq 0 300 false 0

/-- The grant of the C6 witness scenario's allocation. -/
def gB : Grant :=
  { containerId := 1, nodeId := 0, memNodeId := 0, exclusive := ∅, portion := 300,
    memType := memoryUnspec, memset := {0}, memlimit := 0 }

/-- The pool after the C6 witness scenario's allocation: 800 granted
milli-CPU against two sharable CPUs. -/
def pB1 : Pool := { pB with free := mkSupply ∅ {0,1} 800 100 0 }

def stB1 : List Pool := [pB1]

/-- C6 witness: the amended pool-local bound at the concrete one-pool
scenario, every hypothesis discharged by evaluation. -/
theorem allocate_preserves_granted_bound_witness :
    0 ≤ pB1.free.granted ∧ pB1.free.granted ≤ 1000 * (pB1.free.sharable.card : Int) :=
  allocate_preserves_granted_bound stB 0 rB pB gB stB1 (by decide) (by decide) (by decide)
    (by decide) (by decide) (by decide) pB1 (by decide) (by decide)

/-- Follows the spec's words for the C7 comparison: `sharedRemaining =
1000·|sharableCPUs| − GrantedSharedCPU(pool)`; if the request is not
isolated, subtract `1000·full`; subtract `max(fraction, 1)`. -/
def specSharedRemaining (p : Pool) (gsc : Int) (r : Request) : Int :=
  1000 * (p.free.sharable.card : Int) - gsc
    - (if ¬ r.isolate then 1000 * r.full else 0)
    - max r.fraction 1

/-- C7 scenario: an isolate request for one full CPU against a pool with
no isolated and two sharable CPUs. -/
def pC7 : Pool :=
  mkPool 0 [] 0 [0] (mkSupply ∅ {0,1} 0 100 0) (mkSupply ∅ {0,1} 0 100 0)

def rC7 : Request := mkReq 1 0 true 0

/-- C7 counterexample: the code's sharedRemaining (1000) differs from
the spec's formula (1999): the code also subtracts `1000·full` for an
isolate request whose isolated remainder is negative, and subtracts
`fraction` instead of `max(fraction, 1)` whenever `full ≠ 0`. -/
theorem claim7_counterexample :
    (getScore [] 0 pC7 rC7).shared = 1000 ∧
    specSharedRemaining pC7 0 rC7 = 1999 ∧
    specSharedRemaining pC7 0 rC7 ≠ (getScore [] 0 pC7 rC7).shared := by decide

/-- C10: every grant `Allocate` produces carries the granting pool's id
as both its CPU node and its memory node; and `SetMemoryNode` changes
only the memory node and the memory controllers read from it, leaving
every other field of the grant as it was (grants are otherwise immutable
values, so the equality persists until `SetMemoryNode` is called). -/
theorem grant_nodes_agree :
    (∀ (st : List Pool) (nid : Nat) (r : Request) (g : Grant) (st1 : List Pool),
      supplyAllocate st nid r = Except.ok (g, st1) → g.nodeId = g.memNodeId) ∧
    (∀ (g : Grant) (p : Pool),
      (g.setMemoryNode p).memNodeId = p.id ∧
      (g.setMemoryNode p).memset = p.getMemset g.memType ∧
      (g.setMemoryNode p).nodeId = g.nodeId ∧
      (g.setMemoryNode p).containerId = g.containerId ∧
      (g.setMemoryNode p).exclusive = g.exclusive ∧
      (g.setMemoryNode p).portion = g.portion ∧
      (g.setMemoryNode p).memType = g.memType ∧
      (g.setMemoryNode p).memlimit = g.memlimit) := by
  constructor
  · intro st nid r g st1 hAlloc
    unfold supplyAllocate at hAlloc
    cases hfind : st.find? (fun p => p.id = nid) with
    | none => rw [hfind] at hAlloc; cases hAlloc
    | some gp =>
      rw [hfind] at hAlloc
      simp only at hAlloc
      cases hsl : sliceExclusive gp.free r with
      | none => rw [hsl] at hAlloc; cases hAlloc
      | some tr =>
        obtain ⟨ex, iso, shar⟩ := tr
        rw [hsl] at hAlloc
        simp only at hAlloc
        split at hAlloc
        · cases hAlloc
        · split at hAlloc
          · cases hAlloc
          · injection hAlloc with hAlloc
            have hg : newGrant gp r.containerId ex r.fraction r.memType r.memLim = g :=
              congrArg Prod.fst hAlloc
            rw [← hg]
            rfl
  · intro g p
    exact ⟨rfl, rfl, rfl, rfl, rfl, rfl, rfl, rfl⟩

end Memtier

namespace Runtimes

/-- Reads one character of a glob character class, handling a backslash
escape; `none` is Go's `ErrBadPattern` (an unescaped `-` or `]`, or a
dangling escape). Mirrors `getEsc` of Go's `path` package, which
`classes.go` calls through `path.Match`. -/
def getEsc : List Char → Option (Char × List Char)
  | [] => none
  | '-' :: _ => none
  | ']' :: _ => none
  | '\\' :: [] => none
  | '\\' :: d :: rest => some (d, rest)
  | d :: rest => some (d, rest)

/-- Parses the ranges of a glob character class until the closing `]`,
accumulating whether `c` fell in some range. The fuel is bounded by the
pattern length; `none` is a bad pattern. -/
def classLoop : Nat → List Char → Char → Bool → Option (List Char × Bool)
  | 0, _, _, _ => none
  | Nat.succ fuel, p, c, matched =>
    match getEsc p with
    | none => none
    | some (lo, p1) =>
      match p1 with
      | '-' :: p2 =>
        match getEsc p2 with
        | none => none
        | some (hi, p3) =>
          let matched := matched || (lo ≤ c && c ≤ hi)
          match p3 with
          | ']' :: rest => some (rest, matched)
          | _ => classLoop fuel p3 c matched
      | _ =>
        let matched := matched || (lo ≤ c && c ≤ lo)
        match p1 with
        | ']' :: rest => some (rest, matched)
        | _ => classLoop fuel p1 c matched

mutual

/-- `path.Match` of Go's standard library (called by `MatchHandler` in
classes.go), on character lists with an explicit recursion budget: `*`
matches any run of non-separator characters, `?` one non-separator
character, `[...]`/`[^...]` a character class; a bad pattern yields
`false`, exactly as the call site `if match, _ := path.Match(...)`
collapses the error. Every recursive call strictly shrinks
`2*(pattern length + name length)` while consuming one unit of fuel, so
any fuel above that bound computes the match exactly. -/
def globMatchF : Nat → List Char → List Char → Bool
  | 0, _, _ => false
  | Nat.succ fuel, pat, s =>
    match pat, s with
    | [], s => s.isEmpty
    | '*' :: p, s => globMatchStarF fuel p s
    | '?' :: p, s =>
      match s with
      | [] => false
      | c :: s2 => c ≠ '/' && globMatchF fuel p s2
    | '\\' :: [], _ => false
    | '\\' :: d :: p, s =>
      match s with
      | [] => false
      | c :: s2 => c = d && globMatchF fuel p s2
    | '[' :: p, s =>
      match s with
      | [] => false
      | c :: s2 =>
        if c = '/' then false
        else
          match p with
          | '^' :: p1 =>
            match classLoop (p1.length + 1) p1 c false with
            | none => false
            | some (rest, m) => !m && globMatchF fuel rest s2
          | _ =>
            match classLoop (p.length + 1) p c false with
            | none => false
            | some (rest, m) => m && globMatchF fuel rest s2
    | d :: p, s =>
      match s with
      | [] => false
      | c :: s2 => c = d && globMatchF fuel p s2

/-- The `*` case of `path.Match`: try to match the rest of the pattern
at every suffix of the name reachable without crossing a separator. -/
def globMatchStarF (fuel : Nat) (p : List Char) (s : List Char) : Bool :=
  match fuel with
  | 0 => false
  | Nat.succ fuel =>
    globMatchF fuel p s ||
      match s with
      | [] => false
      | c :: s2 => c ≠ '/' && globMatchStarF fuel p s2

end

/-- `path.Match` with fuel ample for its input. -/
def globMatch (pat s : List Char) : Bool :=
  globMatchF (2 * (pat.length + s.length) + 3) pat s

/-- `CriClass` from classes.go. -/
def CriClass : String := "CRI"

/-- `KataClass` from classes.go. -/
def KataClass : String := "kata"

/-- A single runtime-class declaration (`Class` in classes.go). -/
structure RClass where
  name : String
  handlerPattern : String
deriving DecidableEq

/-- `defaultClasses` from classes.go. -/
def defaultClasses : List RClass :=
  [{ name := KataClass, handlerPattern := "kata*" },
   { name := CriClass, handlerPattern := "" }]

/-- The scan loop of `MatchHandler`: the first class with an empty
pattern or whose pattern glob-matches the handler wins; an exhausted list
yields the empty string. -/
def matchHandlerScan (classes : List RClass) (handler : String) : String :=
  match classes with
  | [] => ""
  | c :: rest =>
    if c.handlerPattern = "" then c.name
    else if globMatch c.handlerPattern.toList handler.toList then c.name
    else matchHandlerScan rest handler

/-- `MatchHandler` from classes.go with the default class map: an empty
handler short-circuits to the hard-coded `CriClass`. -/
def MatchHandler (handler : String) : String :=
  if handler = "" then CriClass
  else matchHandlerScan defaultClasses handler

/-- C8 (amended): `MatchHandler` with the default class map: the empty
handler short-circuits to the hard-coded class, otherwise the first
class whose glob matches wins (the kata glob, then the empty default).
The class names are the constants of classes.go: `"kata"` and `"CRI"`
(the hard-coded class is named `"CRI"`, not `"cri"`). -/
theorem matchHandler_behavior :
    (∀ h : String, h ≠ "" →
      MatchHandler h =
        (if globMatch "kata*".toList h.toList then KataClass else CriClass)) ∧
    MatchHandler "kata-qemu" = "kata" ∧
    MatchHandler "runc" = "CRI" ∧
    MatchHandler "" = "CRI" := by
  refine ⟨?_, by decide, by decide, by decide⟩
  intro h hne
  unfold MatchHandler matchHandlerScan defaultClasses
  rw [if_neg hne]
  simp only
  rw [if_neg (by decide : ¬ ("kata*" : String) = "")]
  by_cases hm : globMatch "kata*".toList h.toList
  · rw [if_pos hm, if_pos hm]
  · rw [if_neg hm, if_neg hm]
    unfold matchHandlerScan
    rw [if_pos rfl]

/-- C8 counterexample: the hard-coded and default class is named
`"CRI"`, not `"cri"` as the spec writes it. -/
theorem claim8_counterexample :
    MatchHandler "runc" = "CRI" ∧ MatchHandler "runc" ≠ "cri" ∧
    MatchHandler "" = "CRI" ∧ MatchHandler "" ≠ "cri" := by decide

end Runtimes

namespace Idxset

/-!
The idxset package is embedded denotationally: an `IdxSet` (whose dense
implementation stores one bit per index) is a `Finset Nat`, and its
`ForEach` enumerates indices in increasing order (the ascending
enumeration by range-and-filter). Strings are handled at the character level
(`String.mk`/`String.toList`); all characters involved are ASCII, so Go
bytes and Lean characters agree.
-/

/-- The digit-emitting loop of `strconv.Itoa` for a positive value:
most-significant first; `fuel ≥ n` suffices. -/
def natToCharsCore : Nat → Nat → List Char
  | 0, _ => []
  | Nat.succ fuel, n =>
    if n = 0 then [] else natToCharsCore fuel (n / 10) ++ [Nat.digitChar (n % 10)]

/-- `strconv.Itoa` on a non-negative value (the only values the idxset
code prints). -/
def natToChars (n : Nat) : List Char :=
  if n = 0 then ['0'] else natToCharsCore n n

/-- The accumulating decimal read-back used to model `strconv.Atoi`'s
digit loop. -/
def digitsVal (cs : List Char) : Nat :=
  cs.foldl (fun a c => 10 * a + (c.toNat - 48)) 0

/-- The digit part of `strconv.Atoi`: all characters must be decimal
digits and there must be at least one. (Go additionally errors on values
beyond int64, which never occur in the sets considered here.) -/
def charsToNat? (cs : List Char) : Option Nat :=
  if cs ≠ [] ∧ cs.all Char.isDigit then some (digitsVal cs) else none

/-- `strconv.Atoi`: an optional sign followed by decimal digits. -/
def atoi (cs : List Char) : Option Int :=
  match cs with
  | '+' :: rest => (charsToNat? rest).map Int.ofNat
  | '-' :: rest => (charsToNat? rest).map (fun n => -(n : Int))
  | _ => (charsToNat? cs).map Int.ofNat

/-- The `(str, beg, end)` state of `toString`'s range collapsing
(idxset.go); Go's `-1` sentinels are kept verbatim, with `end` renamed
`last` (`end` is reserved in Lean). -/
structure RangeState where
  acc : List Char
  beg : Int
  last : Int

/-- `writeRange` from idxset.go: flush the pending range, prefixing a
comma when output already exists. -/
def writeRange (acc : List Char) (beg last : Int) : List Char :=
  if beg < 0 then acc
  else
    let acc1 := if acc.length > 0 then acc ++ [','] else acc
    let acc2 := acc1 ++ natToChars beg.toNat
    if last < 0 then acc2 else acc2 ++ '-' :: natToChars last.toNat

/-- The body of the `ForEach` closure in `toString` (idxset.go): start a
run, extend it by one, or flush it and start anew. -/
def strStep (st : RangeState) (idx : Nat) : RangeState :=
  if st.beg < 0 then { st with beg := idx }
  else if st.last < 0 ∧ (idx : Int) = st.beg + 1 then { st with last := idx }
  else if (idx : Int) = st.last + 1 then { st with last := idx }
  else { acc := writeRange st.acc st.beg st.last, beg := idx, last := -1 }

/-- The ascending enumeration of a set, as the dense bitmap's `ForEach`
produces it (idxset.go walks the mask words upward, lowest bit first):
every index up to the maximum, kept when present. -/
def sortedIndices (s : Finset Nat) : List Nat :=
  (List.range (s.sup id + 1)).filter (fun i => i ∈ s)

/-- `toString` from idxset.go: fold the ascending indices through the
range collapser and flush the final range. -/
def toStringChars (s : Finset Nat) : List Char :=
  let fin := (sortedIndices s).foldl strStep { acc := [], beg := -1, last := -1 }
  writeRange fin.acc fin.beg fin.last

/-- `IdxSet.String()` of the dense implementation (the cached string is
recomputed by `toString` whenever the set changed). -/
def idxsetString (s : Finset Nat) : String :=
  String.mk (toStringChars s)

/-- `strings.Split` with a one-character separator: every separator
occurrence splits, empty fields are kept. -/
def splitOnChar (sep : Char) : List Char → List (List Char)
  | [] => [[]]
  | c :: rest =>
    if c = sep then [] :: splitOnChar sep rest
    else
      match splitOnChar sep rest with
      | [] => [[c]]
      | piece :: more => (c :: piece) :: more

/-- `strings.SplitN(_, sep, 2)`: split at the first separator only. -/
def splitN2 (sep : Char) : List Char → List (List Char)
  | [] => [[]]
  | c :: rest =>
    if c = sep then [[], rest]
    else
      match splitN2 sep rest with
      | [] => [[c]]
      | piece :: more => (c :: piece) :: more

/-- The `for i := beg; i <= end; i++` expansion of a parsed range
(idxset.go). -/
def rangeIndices (beg fin : Int) : List Int :=
  (List.range (fin + 1 - beg).toNat).map (fun (k : Nat) => beg + (k : Int))

/-- One comma-separated item of `parse` (idxset.go): `beg-end` when a
dash is present (rejecting `beg > end`), a plain integer otherwise. -/
def parseItem (item : List Char) : Except String (List Int) :=
  match splitN2 '-' item with
  | [rb, re] =>
    match atoi rb, atoi re with
    | some beg, some fin =>
      if beg > fin then .error "invalid range" else .ok (rangeIndices beg fin)
    | _, _ => .error "invalid range"
  | _ =>
    match atoi item with
    | some idx => .ok [idx]
    | none => .error "invalid index"

/-- `parse` from idxset.go up to the final `Add`: the collected index
list, in order. An empty string collects nothing. -/
def parseIndices (cs : List Char) : Except String (List Int) :=
  if cs = [] then .ok []
  else do
    let ls ← (splitOnChar ',' cs).mapM parseItem
    pure ls.flatten

/-- `IdxSet.Parse` (idxset.go): `Reset` followed by `Add(indices...)`.
`Add` panics on a negative index; the panic is modelled as an error (it
is in fact unreachable, since no parsed item can be negative). -/
def idxsetParse (str : String) : Except String (Finset Nat) :=
  match parseIndices str.toList with
  | .error e => .error e
  | .ok idxs =>
    if idxs.all (fun i => 0 ≤ i) then .ok (idxs.map Int.toNat).toFinset
    else .error "panic: negative index"

/-- An item of the spec's well-formed range-notation grammar (§4.1):
a plain integer or a `beg-end` range, both in canonical decimal. -/
inductive PItem : Type
  | single : Nat → PItem
  | span : Nat → Nat → PItem
deriving DecidableEq

/-- Renders one grammar item. -/
def renderPItem : PItem → List Char
  | .single n => natToChars n
  | .span a b => natToChars a ++ '-' :: natToChars b

/-- Appends one rendered piece to accumulated output, comma-separating
exactly as `writeRange` does. -/
def joinPiece (acc piece : List Char) : List Char :=
  (if acc = [] then [] else acc ++ [',']) ++ piece

/-- Joins rendered pieces left to right. -/
def joinAcc (acc : List Char) (pieces : List (List Char)) : List Char :=
  pieces.foldl joinPiece acc

/-- Renders a whole well-formed string of the grammar. -/
def renderPItems (items : List PItem) : List Char :=
  joinAcc [] (items.map renderPItem)

/-- The indices an item denotes. -/
def expandPItem : PItem → List Nat
  | .single n => [n]
  | .span a b => (List.range (b + 1 - a)).map (fun k => a + k)

/-- The set a well-formed string denotes: the union of its items. -/
def denotePItems (items : List PItem) : Finset Nat :=
  (items.map expandPItem).flatten.toFinset

/-- Well-formedness of the grammar (spec §4.1): every range has
`beg ≤ end`. -/
def wfPItems (items : List PItem) : Prop :=
  ∀ it ∈ items, match it with
    | .single _ => True
    | .span a b => a ≤ b

/-- Maximal-run decomposition: `runsAux a c l` closes the pending run
`a..c` against the remaining indices. -/
def runsAux (a c : Nat) : List Nat → List (Nat × Nat)
  | [] => [(a, c)]
  | x :: xs => if x = c + 1 then runsAux a x xs else (a, c) :: runsAux x x xs

/-- Maximal runs of consecutive integers in a list. -/
def runs : List Nat → List (Nat × Nat)
  | [] => []
  | x :: xs => runsAux x x xs

/-- A run as a grammar item: singletons print bare, longer runs as
ranges. -/
def runItem (r : Nat × Nat) : PItem :=
  if r.1 = r.2 then .single r.1 else .span r.1 r.2

theorem digitChar_isDigit {m : Nat} (h : m < 10) : (Nat.digitChar m).isDigit = true := by
  interval_cases m <;> decide

theorem digitChar_val {m : Nat} (h : m < 10) : (Nat.digitChar m).toNat - 48 = m := by
  interval_cases m <;> decide

theorem natToCharsCore_digits (fuel : Nat) :
    ∀ n c, c ∈ natToCharsCore fuel n → c.isDigit = true := by
  induction fuel with
  | zero => intro n c h; simp [natToCharsCore] at h
  | succ fuel ih =>
    intro n c h
    simp only [natToCharsCore] at h
    split at h
    · simp at h
    · rcases List.mem_append.1 h with h1 | h1
      · exact ih _ _ h1
      · simp at h1
        subst h1
        exact digitChar_isDigit (Nat.mod_lt _ (by omega))

theorem natToChars_digits (n : Nat) : ∀ c ∈ natToChars n, c.isDigit = true := by
  intro c h
  unfold natToChars at h
  split at h
  · simp at h; subst h; decide
  · exact natToCharsCore_digits n n c h

theorem natToCharsCore_ne_nil (fuel n : Nat) (h1 : n ≠ 0) (h2 : n ≤ fuel) :
    natToCharsCore fuel n ≠ [] := by
  cases fuel with
  | zero => omega
  | succ fuel => simp [natToCharsCore, h1]

theorem natToChars_ne_nil (n : Nat) : natToChars n ≠ [] := by
  unfold natToChars
  split
  · simp
  · rename_i h
    exact natToCharsCore_ne_nil n n h le_rfl

def digitsValFrom (a : Nat) (cs : List Char) : Nat :=
  cs.foldl (fun a c => 10 * a + (c.toNat - 48)) a

theorem digitsValFrom_append (a : Nat) (xs ys : List Char) :
    digitsValFrom a (xs ++ ys) = digitsValFrom (digitsValFrom a xs) ys := by
  simp [digitsValFrom, List.foldl_append]

theorem core_val (fuel : Nat) : ∀ n a, n ≤ fuel →
    digitsValFrom a (natToCharsCore fuel n) =
      a * 10 ^ (natToCharsCore fuel n).length + n := by
  induction fuel with
  | zero =>
    intro n a h
    have : n = 0 := by omega
    subst this
    simp [natToCharsCore, digitsValFrom]
  | succ fuel ih =>
    intro n a h
    by_cases hz : n = 0
    · subst hz; simp [natToCharsCore, digitsValFrom]
    · have hrec : n / 10 ≤ fuel := by
        have hd : n / 10 < n := Nat.div_lt_self (Nat.pos_of_ne_zero hz) (by decide)
        omega
      simp only [natToCharsCore, if_neg hz]
      rw [digitsValFrom_append, ih _ a hrec]
      simp only [digitsValFrom, List.foldl]
      rw [digitChar_val (Nat.mod_lt _ (by omega))]
      rw [List.length_append, List.length_cons, List.length_nil]
      rw [pow_succ, ← mul_assoc]
      have hnm : 10 * (n / 10) + n % 10 = n := Nat.div_add_mod n 10
      generalize (a * 10 ^ (natToCharsCore fuel (n / 10)).length) = K
      omega

theorem digitsVal_natToChars (n : Nat) : digitsVal (natToChars n) = n := by
  unfold natToChars digitsVal
  split
  · rename_i h; subst h; decide
  · have := core_val n n 0 le_rfl
    simpa [digitsValFrom] using this

theorem charsToNat_natToChars (n : Nat) : charsToNat? (natToChars n) = some n := by
  unfold charsToNat?
  rw [if_pos]
  · rw [digitsVal_natToChars]
  · exact ⟨natToChars_ne_nil n, List.all_eq_true.2 (fun c h => natToChars_digits n c h)⟩

theorem isDigit_ne_plus {c : Char} (h : c.isDigit = true) : c ≠ '+' := by
  intro he; subst he; simp [Char.isDigit] at h

theorem isDigit_ne_minus {c : Char} (h : c.isDigit = true) : c ≠ '-' := by
  intro he; subst he; simp [Char.isDigit] at h

theorem isDigit_ne_comma {c : Char} (h : c.isDigit = true) : c ≠ ',' := by
  intro he; subst he; simp [Char.isDigit] at h

theorem atoi_natToChars (n : Nat) : atoi (natToChars n) = some (n : Int) := by
  rcases hh : natToChars n with _ | ⟨c, rest⟩
  · exact absurd hh (natToChars_ne_nil n)
  · have hc : c.isDigit = true := natToChars_digits n c (by rw [hh]; simp)
    have h1 : c ≠ '+' := isDigit_ne_plus hc
    have h2 : c ≠ '-' := isDigit_ne_minus hc
    have : atoi (c :: rest) = (charsToNat? (c :: rest)).map Int.ofNat := by
      rw [atoi.eq_def]
      split
      · rename_i heq; cases heq; simp at h1
      · rename_i heq; cases heq; simp at h2
      · rfl
    rw [← hh] at this ⊢
    rw [this, charsToNat_natToChars]
    rfl

theorem splitOnChar_no_sep (sep : Char) (cs : List Char) (h : sep ∉ cs) :
    splitOnChar sep cs = [cs] := by
  induction cs with
  | nil => rfl
  | cons c rest ih =>
    have hc : c ≠ sep := fun he => h (he ▸ List.mem_cons_self c rest)
    have hrest : sep ∉ rest := fun hm => h (List.mem_cons_of_mem c hm)
    simp only [splitOnChar, if_neg (by simpa using fun he => hc he)]
    rw [ih hrest]

theorem splitOnChar_append (sep : Char) (p rest : List Char) (h : sep ∉ p) :
    splitOnChar sep (p ++ sep :: rest) = p :: splitOnChar sep rest := by
  induction p with
  | nil => simp [splitOnChar]
  | cons c q ih =>
    have hc : c ≠ sep := fun he => h (he ▸ List.mem_cons_self c q)
    have hq : sep ∉ q := fun hm => h (List.mem_cons_of_mem c hm)
    simp only [List.cons_append, splitOnChar, if_neg (by simpa using fun he => hc he)]
    rw [show q.append (sep :: rest) = q ++ sep :: rest from rfl, ih hq]

theorem splitN2_no_sep (sep : Char) (cs : List Char) (h : sep ∉ cs) :
    splitN2 sep cs = [cs] := by
  induction cs with
  | nil => rfl
  | cons c rest ih =>
    have hc : c ≠ sep := fun he => h (he ▸ List.mem_cons_self c rest)
    have hrest : sep ∉ rest := fun hm => h (List.mem_cons_of_mem c hm)
    simp only [splitN2, if_neg (by simpa using fun he => hc he)]
    rw [ih hrest]

theorem splitN2_append (sep : Char) (p q : List Char) (h : sep ∉ p) :
    splitN2 sep (p ++ sep :: q) = [p, q] := by
  induction p with
  | nil => simp [splitN2]
  | cons c r ih =>
    have hc : c ≠ sep := fun he => h (he ▸ List.mem_cons_self c r)
    have hr : sep ∉ r := fun hm => h (List.mem_cons_of_mem c hm)
    simp only [List.cons_append, splitN2, if_neg (by simpa using fun he => hc he)]
    rw [show r.append (sep :: q) = r ++ sep :: q from rfl, ih hr]

theorem joinAcc_nil_pieces (acc : List Char) : joinAcc acc [] = acc := rfl

theorem joinAcc_cons (acc p : List Char) (ps : List (List Char)) :
    joinAcc acc (p :: ps) = joinAcc (joinPiece acc p) ps := rfl

theorem joinPiece_nil (p : List Char) : joinPiece [] p = p := rfl

/-- Flattened view of `joinAcc` when output already exists. -/
theorem joinAcc_flat (ps : List (List Char)) : ∀ acc, acc ≠ [] →
    joinAcc acc ps = acc ++ (ps.map (fun p => ',' :: p)).flatten := by
  induction ps with
  | nil => intro acc _; simp [joinAcc]
  | cons q qs ih =>
    intro acc hacc
    rw [joinAcc_cons]
    have hne : joinPiece acc q ≠ [] := by
      simp [joinPiece, if_neg hacc]
    rw [ih _ hne]
    simp [joinPiece, if_neg hacc]

/-- Splitting the rendered pieces recovers them. -/
theorem splitOnChar_flat (ps : List (List Char)) : ∀ p, p ≠ [] → ',' ∉ p →
    (∀ q ∈ ps, q ≠ [] ∧ ',' ∉ q) →
    splitOnChar ',' (p ++ (ps.map (fun q => ',' :: q)).flatten) = p :: ps := by
  induction ps with
  | nil => intro p _ hp _; simp [splitOnChar_no_sep ',' p hp]
  | cons q qs ih =>
    intro p _ hp hqs
    have hq := hqs q (List.mem_cons_self q qs)
    have hqs' : ∀ r ∈ qs, r ≠ [] ∧ ',' ∉ r := fun r hr => hqs r (List.mem_cons_of_mem q hr)
    simp only [List.map_cons, List.flatten_cons]
    rw [show p ++ (',' :: q ++ (qs.map (fun r => ',' :: r)).flatten) =
        p ++ ',' :: (q ++ (qs.map (fun r => ',' :: r)).flatten) by simp]
    rw [splitOnChar_append ',' p _ hp]
    rw [ih q hq.1 hq.2 hqs']

theorem splitOnChar_joinAcc (p : List Char) (ps : List (List Char))
    (hall : ∀ q ∈ p :: ps, q ≠ [] ∧ ',' ∉ q) :
    splitOnChar ',' (joinAcc [] (p :: ps)) = p :: ps := by
  have hp := hall p (List.mem_cons_self p ps)
  rw [joinAcc_cons, joinPiece_nil]
  by_cases hps : ps = []
  · subst hps
    simp [joinAcc, splitOnChar_no_sep ',' p hp.2]
  · rw [joinAcc_flat ps p hp.1]
    exact splitOnChar_flat ps p hp.1 hp.2 (fun q hq => hall q (List.mem_cons_of_mem p hq))

theorem renderPItem_ne_nil (it : PItem) : renderPItem it ≠ [] := by
  cases it with
  | single n => simpa [renderPItem] using natToChars_ne_nil n
  | span a b =>
    simp only [renderPItem]
    intro h
    exact natToChars_ne_nil a (List.append_eq_nil.1 h).1

theorem comma_not_mem_natToChars (n : Nat) : ',' ∉ natToChars n := by
  intro h
  exact isDigit_ne_comma (natToChars_digits n ',' h) rfl

theorem comma_not_mem_renderPItem (it : PItem) : ',' ∉ renderPItem it := by
  cases it with
  | single n => simpa [renderPItem] using comma_not_mem_natToChars n
  | span a b =>
    simp only [renderPItem]
    intro h
    rcases List.mem_append.1 h with h | h
    · exact comma_not_mem_natToChars a h
    · rcases List.mem_cons.1 h with h | h
      · cases h
      · exact comma_not_mem_natToChars b h

theorem minus_not_mem_natToChars (n : Nat) : '-' ∉ natToChars n := by
  intro h
  exact isDigit_ne_minus (natToChars_digits n '-' h) rfl

/-- Parsing one rendered item recovers its indices. -/
theorem parseItem_render (it : PItem)
    (hwf : match it with | .single _ => True | .span a b => a ≤ b) :
    parseItem (renderPItem it) = .ok ((expandPItem it).map Int.ofNat) := by
  cases it with
  | single n =>
    simp only [renderPItem, parseItem]
    rw [splitN2_no_sep '-' _ (minus_not_mem_natToChars n)]
    simp only [atoi_natToChars]
    rfl
  | span a b =>
    have hab : a ≤ b := hwf
    simp only [renderPItem, parseItem]
    rw [splitN2_append '-' _ _ (minus_not_mem_natToChars a)]
    simp only [atoi_natToChars]
    rw [if_neg (by exact_mod_cast not_lt.2 (Int.ofNat_le.2 hab))]
    simp only [rangeIndices, expandPItem]
    have hcast : ((b : Int) + 1 - (a : Int)).toNat = b + 1 - a := by omega
    rw [hcast]
    simp only [List.map_map]
    congr 1

/-- `mapM parseItem` over rendered well-formed items succeeds pointwise. -/
theorem mapM_parseItem_render (items : List PItem) (hwf : wfPItems items) :
    (items.map renderPItem).mapM parseItem =
      Except.ok (items.map (fun it => (expandPItem it).map Int.ofNat)) := by
  induction items with
  | nil => rfl
  | cons it rest ih =>
    have h1 : parseItem (renderPItem it) = .ok ((expandPItem it).map Int.ofNat) :=
      parseItem_render it (hwf it (List.mem_cons_self it rest))
    have h2 := ih (fun j hj => hwf j (List.mem_cons_of_mem it hj))
    simp only [List.map_cons, List.mapM_cons, h1, h2]
    rfl

theorem renderPItems_ne_nil (it : PItem) (rest : List PItem) :
    renderPItems (it :: rest) ≠ [] := by
  unfold renderPItems
  rw [List.map_cons, joinAcc_cons, joinPiece_nil]
  by_cases h : rest.map renderPItem = []
  · rw [h, joinAcc_nil_pieces]
    exact renderPItem_ne_nil it
  · rw [joinAcc_flat _ _ (renderPItem_ne_nil it)]
    simp [renderPItem_ne_nil it]

/-- Parsing a rendered well-formed string collects exactly the denoted
indices, in order. -/
theorem parseIndices_render (items : List PItem) (hwf : wfPItems items) :
    parseIndices (renderPItems items) =
      .ok ((items.map expandPItem).flatten.map Int.ofNat) := by
  cases items with
  | nil => rfl
  | cons it rest =>
    unfold parseIndices
    rw [if_neg (renderPItems_ne_nil it rest)]
    have hsplit : splitOnChar ',' (renderPItems (it :: rest)) =
        (it :: rest).map renderPItem := by
      unfold renderPItems
      rw [List.map_cons]
      exact splitOnChar_joinAcc _ _ (by
        intro q hq
        rw [← List.map_cons] at hq
        obtain ⟨j, hj, rfl⟩ := List.mem_map.1 hq
        exact ⟨renderPItem_ne_nil j, comma_not_mem_renderPItem j⟩)
    rw [hsplit, mapM_parseItem_render (it :: rest) hwf]
    show Except.ok (((it :: rest).map (fun j => (expandPItem j).map Int.ofNat)).flatten) = _
    congr 1
    rw [show (fun j => List.map Int.ofNat (expandPItem j)) = (List.map Int.ofNat ∘ expandPItem) from rfl]
    rw [← List.map_map, ← List.map_flatten]

/-- Expanding one run as a grammar item. -/
theorem expandPItem_runItem (r : Nat × Nat) :
    expandPItem (runItem r) = (List.range (r.2 + 1 - r.1)).map (fun k => r.1 + k) := by
  unfold runItem
  split
  · rename_i he
    simp only [expandPItem]
    rw [← he]
    have : r.1 + 1 - r.1 = 1 := by omega
    rw [this]
    rfl
  · rfl

/-- Runs keep their bounds ordered. -/
theorem runsAux_wf (l : List Nat) : ∀ a c, a ≤ c → ∀ r ∈ runsAux a c l, r.1 ≤ r.2 := by
  induction l with
  | nil =>
    intro a c hac r hr
    simp only [runsAux, List.mem_singleton] at hr
    subst hr
    exact hac
  | cons x xs ih =>
    intro a c hac r hr
    simp only [runsAux] at hr
    split at hr
    · exact ih a x (by omega) r hr
    · rcases List.mem_cons.1 hr with h | h
      · subst h; exact hac
      · exact ih x x le_rfl r h

/-- Expanding the runs of a list recovers the list. -/
theorem expandRuns (l : List Nat) : ∀ a c, a ≤ c →
    ((runsAux a c l).map (fun r => (List.range (r.2 + 1 - r.1)).map (fun k => r.1 + k))).flatten =
      (List.range (c + 1 - a)).map (fun k => a + k) ++ l := by
  induction l with
  | nil => intro a c _; simp [runsAux]
  | cons x xs ih =>
    intro a c hac
    simp only [runsAux]
    split
    · rename_i hx
      rw [ih a x (by omega)]
      have : (List.range (x + 1 - a)).map (fun k => a + k) =
          (List.range (c + 1 - a)).map (fun k => a + k) ++ [x] := by
        subst hx
        have h1 : c + 1 + 1 - a = (c + 1 - a) + 1 := by omega
        rw [h1, List.range_succ, List.map_append]
        simp only [List.map_cons, List.map_nil]
        congr 2
        omega
      rw [this]
      simp
    · rename_i hx
      rw [List.map_cons, List.flatten_cons, ih x x le_rfl]
      have : (List.range (x + 1 - x)).map (fun k => x + k) = [x] := by
        have : x + 1 - x = 1 := by omega
        rw [this]
        rfl
      rw [this]
      simp

/-- The ascending enumeration is strictly sorted. -/
theorem sortedIndices_sorted (s : Finset Nat) : (sortedIndices s).Sorted (· < ·) := by
  unfold sortedIndices
  exact (List.sorted_lt_range _).filter _

/-- The ascending enumeration enumerates exactly the set. -/
theorem sortedIndices_toFinset (s : Finset Nat) : (sortedIndices s).toFinset = s := by
  unfold sortedIndices
  ext i
  simp only [List.mem_toFinset, List.mem_filter, List.mem_range, decide_eq_true_eq]
  constructor
  · exact fun h => h.2
  · intro h
    refine ⟨?_, h⟩
    have hle : id i ≤ s.sup id := Finset.le_sup h
    simp only [id_eq] at hle
    omega

/-- Flushes a collapser state, as the final `writeRange` call does. -/
def flushState (st : RangeState) : List Char :=
  writeRange st.acc st.beg st.last

/-- The sentinel encoding of a pending run `a..c`: `-1` when the run is
still a singleton. -/
def mkLast (a c : Nat) : Int :=
  if c = a then -1 else (c : Int)

theorem toStringChars_eq_flush (s : Finset Nat) :
    toStringChars s = flushState ((sortedIndices s).foldl strStep ⟨[], -1, -1⟩) := rfl

theorem ifAcc (acc : List Char) (tail : List Char) :
    (if acc.length > 0 then acc ++ tail else acc) = (if acc = [] then [] else acc ++ tail) := by
  cases acc <;> simp

theorem writeRange_run (acc : List Char) (a c : Nat) :
    writeRange acc (a : Int) (mkLast a c) = joinPiece acc (renderPItem (runItem (a, c))) := by
  have hna : ¬ ((a : Int) < 0) := not_lt.2 (Int.natCast_nonneg a)
  by_cases hca : c = a
  · subst hca
    simp [writeRange, mkLast, joinPiece, renderPItem, runItem, hna, ifAcc]
  · have hnc : ¬ ((c : Int) < 0) := not_lt.2 (Int.natCast_nonneg c)
    have hac : a ≠ c := fun h => hca h.symm
    simp [writeRange, mkLast, joinPiece, renderPItem, runItem, hna, hnc, hca, hac, ifAcc]

/-- The collapser state reached by folding indices strictly above the
pending run flushes to the rendered runs. -/
theorem machine_run (l : List Nat) : ∀ (acc : List Char) (a c : Nat),
    l.Sorted (· < ·) → (∀ x ∈ l, c < x) → a ≤ c →
    flushState (l.foldl strStep ⟨acc, (a : Int), mkLast a c⟩) =
      joinAcc acc ((runsAux a c l).map (fun r => renderPItem (runItem r))) := by
  induction l with
  | nil =>
    intro acc a c _ _ _
    simp only [List.foldl_nil, runsAux, List.map_cons, List.map_nil]
    rw [joinAcc_cons, joinAcc_nil_pieces]
    exact writeRange_run acc a c
  | cons x xs ih =>
    intro acc a c hs hgt hac
    have hsx : xs.Sorted (· < ·) := (List.sorted_cons.1 hs).2
    have hxlt : ∀ y ∈ xs, x < y := (List.sorted_cons.1 hs).1
    have hcx : c < x := hgt x (List.mem_cons_self x xs)
    have hna : ¬ ((a : Int) < 0) := not_lt.2 (Int.natCast_nonneg a)
    rw [List.foldl_cons]
    have hstep : strStep ⟨acc, (a : Int), mkLast a c⟩ x =
        if x = c + 1 then ⟨acc, (a : Int), mkLast a x⟩
        else ⟨joinPiece acc (renderPItem (runItem (a, c))), (x : Int), mkLast x x⟩ := by
      by_cases hca : c = a
      · by_cases hx1 : x = c + 1
        · have hxcast : ((x : Nat) : Int) = (a : Int) + 1 := by
            subst hca; exact_mod_cast hx1
          have hxa : x ≠ a := by omega
          simp [strStep, mkLast, hca, hx1, hna, hxcast, hxa]
        · have hxc1 : ¬ ((x : Nat) : Int) = (a : Int) + 1 := by
            subst hca
            exact_mod_cast hx1
          have hx0 : ¬ ((x : Nat) : Int) = -1 + 1 := by
            intro h
            have : x = 0 := by exact_mod_cast (by omega : ((x : Nat) : Int) = 0)
            omega
          have hflush : writeRange acc (a : Int) (-1) =
              joinPiece acc (renderPItem (runItem (a, c))) := by
            have := writeRange_run acc a c
            rw [show mkLast a c = -1 by simp [mkLast, hca]] at this
            exact this
          simp [strStep, mkLast, hca, hx1, hna, hxc1, hx0, hflush,
            show x ≠ 0 by omega, show ¬ x = a + 1 by omega]
      · have hnc : ¬ ((c : Int) < 0) := not_lt.2 (Int.natCast_nonneg c)
        by_cases hx1 : x = c + 1
        · have hxcast : ((x : Nat) : Int) = (c : Int) + 1 := by exact_mod_cast hx1
          have hxa : x ≠ a := by omega
          simp [strStep, mkLast, hca, hx1, hna, hnc, hxcast, hxa,
            show ¬ (c + 1 = a) by omega]
        · have hxc1 : ¬ ((x : Nat) : Int) = (c : Int) + 1 := by exact_mod_cast hx1
          have hflush : writeRange acc (a : Int) ((c : Nat) : Int) =
              joinPiece acc (renderPItem (runItem (a, c))) := by
            have := writeRange_run acc a c
            rw [show mkLast a c = ((c : Nat) : Int) by simp [mkLast, hca]] at this
            exact this
          simp [strStep, mkLast, hca, hx1, hna, hnc, hxc1, hflush]
    rw [hstep]
    by_cases hx1 : x = c + 1
    · rw [if_pos hx1]
      rw [ih acc a x hsx hxlt (by omega)]
      simp only [runsAux]
      rw [if_pos hx1]
    · rw [if_neg hx1]
      rw [ih (joinPiece acc (renderPItem (runItem (a, c)))) x x hsx hxlt le_rfl]
      simp only [runsAux]
      rw [if_neg hx1]
      rw [List.map_cons, joinAcc_cons]

/-- `toString` produces exactly the rendered maximal runs. -/
theorem toStringChars_eq_render (s : Finset Nat) :
    toStringChars s = renderPItems ((runs (sortedIndices s)).map runItem) := by
  rw [toStringChars_eq_flush]
  cases hl : sortedIndices s with
  | nil =>
    simp [flushState, writeRange, runs, renderPItems, joinAcc]
  | cons x xs =>
    have hs := sortedIndices_sorted s
    rw [hl] at hs
    have hsx : xs.Sorted (· < ·) := (List.sorted_cons.1 hs).2
    have hxlt : ∀ y ∈ xs, x < y := (List.sorted_cons.1 hs).1
    rw [List.foldl_cons]
    have hfirst : strStep ⟨[], -1, -1⟩ x = ⟨[], (x : Int), mkLast x x⟩ := by
      simp [strStep, mkLast]
    rw [hfirst, machine_run xs [] x x hsx hxlt le_rfl]
    unfold renderPItems runs
    rw [List.map_map]
    rfl

/-- Every run is a well-formed grammar item. -/
theorem wf_runItems (l : List Nat) :
    wfPItems ((runs l).map runItem) := by
  intro it hit
  obtain ⟨r, hr, rfl⟩ := List.mem_map.1 hit
  have hr12 : r.1 ≤ r.2 := by
    cases l with
    | nil => simp [runs] at hr
    | cons x xs => exact runsAux_wf xs x x le_rfl r hr
  by_cases h : r.1 = r.2
  · simp [runItem, h]
  · simp only [runItem, if_neg h]
    exact hr12

/-- The runs of a list expand back to the list itself. -/
theorem expand_runs_eq (l : List Nat) :
    (((runs l).map runItem).map expandPItem).flatten = l := by
  cases l with
  | nil => rfl
  | cons x xs =>
    unfold runs
    rw [List.map_map]
    have hmap : (runsAux x x xs).map (expandPItem ∘ runItem) =
        (runsAux x x xs).map (fun r => (List.range (r.2 + 1 - r.1)).map (fun k => r.1 + k)) :=
      List.map_congr_left (fun r _ => expandPItem_runItem r)
    rw [hmap, expandRuns xs x x le_rfl]
    have : (List.range (x + 1 - x)).map (fun k => x + k) = [x] := by
      rw [show x + 1 - x = 1 by omega]
      rfl
    rw [this]
    rfl

/-- Reading back a parsed non-negative index list. -/
theorem parsedFinset (l : List Nat) :
    ((l.map Int.ofNat).map Int.toNat).toFinset = l.toFinset := by
  rw [List.map_map]
  congr 1
  rw [show (Int.toNat ∘ Int.ofNat) = id from funext (fun n => Int.toNat_natCast n)]
  exact List.map_id l

/-- `Parse` recovers the set from any rendered well-formed string. -/
theorem idxsetParse_render (items : List PItem) (hwf : wfPItems items) :
    idxsetParse (String.mk (renderPItems items)) = .ok (denotePItems items) := by
  have htl : (String.mk (renderPItems items)).toList = renderPItems items := rfl
  unfold idxsetParse
  split
  · rename_i e he
    rw [htl, parseIndices_render items hwf] at he
    simp at he
  · rename_i idxs hok
    rw [htl, parseIndices_render items hwf] at hok
    injection hok with hok
    subst hok
    rw [if_pos (by
      rw [List.all_eq_true]
      intro i hi
      obtain ⟨n, _, rfl⟩ := List.mem_map.1 hi
      simp)]
    rw [parsedFinset]
    rfl

/-- Round trip one: parsing a printed set returns the same set. -/
theorem idxsetParse_idxsetString (s : Finset Nat) :
    idxsetParse (idxsetString s) = .ok s := by
  have h1 : idxsetString s = String.mk (renderPItems ((runs (sortedIndices s)).map runItem)) := by
    unfold idxsetString
    rw [toStringChars_eq_render]
  rw [h1, idxsetParse_render _ (wf_runItems (sortedIndices s))]
  unfold denotePItems
  rw [expand_runs_eq, sortedIndices_toFinset]

/-- C9: the idxset round trips: parsing a printed set returns exactly
that set, and printing the parse of any well-formed range-notation
string gives its canonical form (the canonical printing of the set it
denotes: consecutive indices collapsed into ranges, the empty set
printed as the empty string). -/
theorem idxset_roundtrip :
    (∀ s : Finset Nat, idxsetParse (idxsetString s) = Except.ok s) ∧
    (∀ items : List PItem, wfPItems items →
      (idxsetParse (String.mk (renderPItems items))).map idxsetString =
        Except.ok (idxsetString (denotePItems items))) := by
  refine ⟨idxsetParse_idxsetString, fun items h => ?_⟩
  rw [idxsetParse_render items h]
  rfl

end Idxset
